import Mathlib

set_option maxHeartbeats 1000000

namespace Helios

/-- All terminal and non-terminal tags of the Helios grammar, embedded from the
SyntaxKind enum of crates/helios-syntax/src/lib.rs (same variant order). The
source variants Exp_UnaryPrefix and Exp_UnaryPostfix are spelled
Exp_UnaryPrefixed and Exp_UnaryPostfixed here. The parser crate
(crates/helios-parser/src/lib.rs) additionally references the kinds Newline,
Indent and Dedent, which the catalog file at hand predates; they are included
here so the indentation rewriter can be embedded. -/
inductive SyntaxKind where
  | Kwd_Alias | Kwd_And | Kwd_As | Kwd_Begin | Kwd_Else | Kwd_End
  | Kwd_Export | Kwd_External | Kwd_For | Kwd_Forall | Kwd_If | Kwd_Import
  | Kwd_In | Kwd_Let | Kwd_Loop | Kwd_Match | Kwd_Module | Kwd_Not
  | Kwd_Of | Kwd_Or | Kwd_Rec | Kwd_Ref | Kwd_Then | Kwd_Type
  | Kwd_Unimplemented | Kwd_Val | Kwd_While | Kwd_With
  | Sym_Ampersand | Sym_Asterisk | Sym_At | Sym_BackSlash | Sym_Bang
  | Sym_BangEq | Sym_Caret | Sym_Colon | Sym_Comma | Sym_Dollar | Sym_Dot
  | Sym_EmDash | Sym_EnDash | Sym_Eq | Sym_ForwardSlash | Sym_Minus
  | Sym_Percent | Sym_Pipe | Sym_Plus | Sym_Pound | Sym_Question
  | Sym_Semicolon | Sym_Sterling | Sym_Tilde
  | Sym_Lt | Sym_LtEq | Sym_Gt | Sym_GtEq
  | Sym_LThinArrow | Sym_RThinArrow | Sym_ThickArrow
  | Sym_LBrace | Sym_RBrace | Sym_LBracket | Sym_RBracket
  | Sym_LParen | Sym_RParen
  | Lit_Character | Lit_Float | Lit_Integer | Lit_String
  | Exp_Binary | Exp_Literal | Exp_Paren
  | Exp_UnaryPrefixed | Exp_UnaryPostfixed | Exp_VariableRef
  | Dec_GlobalBinding
  | Comment | DocComment | Whitespace
  | Newline | Indent | Dedent
  | Identifier | ReservedIdentifier | Error | Root
  deriving DecidableEq

/-- A lexer token: a kind, the verbatim text, and the half-open range
start..stop into the source. This embeds the Token structure used by
crates/helios-parser/src/lib.rs; the source is modelled as a list of
characters, so ranges count characters where the source counts bytes. -/
structure Tok where
  kind : SyntaxKind
  text : List Char
  start : Nat
  stop : Nat
  deriving DecidableEq

/-- The half-open slice source[a..b], as used by the indentation rewriter for
its error token. -/
def slice (s : List Char) (a b : Nat) : List Char :=
  (s.drop a).take (b - a)

/-- Concatenation of the texts of a token list, in order. -/
def concatText (ts : List Tok) : List Char :=
  (ts.map Tok.text).flatten

/-- End offset of the last token of a list, or 0 for the empty list (matching
processed_tokens.last().map(range.end).unwrap_or(0) in the source). -/
def lastStop (ts : List Tok) : Nat :=
  ((ts.getLast?).map Tok.stop).getD 0

/-- The symbol_from_char function of crates/helios-syntax/src/lib.rs. The
source panics on characters outside the symbol set; the panic is modelled as
none. -/
def symbol_from_char (c : Char) : Option SyntaxKind :=
  if c = '&' then some .Sym_Ampersand
  else if c = '*' then some .Sym_Asterisk
  else if c = '@' then some .Sym_At
  else if c = '\\' then some .Sym_BackSlash
  else if c = '!' then some .Sym_Bang
  else if c = '^' then some .Sym_Caret
  else if c = ':' then some .Sym_Colon
  else if c = ',' then some .Sym_Comma
  else if c = '$' then some .Sym_Dollar
  else if c = '.' then some .Sym_Dot
  else if c = '—' then some .Sym_EmDash
  else if c = '–' then some .Sym_EnDash
  else if c = '=' then some .Sym_Eq
  else if c = '/' then some .Sym_ForwardSlash
  else if c = '-' then some .Sym_Minus
  else if c = '%' then some .Sym_Percent
  else if c = '|' then some .Sym_Pipe
  else if c = '+' then some .Sym_Plus
  else if c = '#' then some .Sym_Pound
  else if c = '?' then some .Sym_Question
  else if c = ';' then some .Sym_Semicolon
  else if c = '£' then some .Sym_Sterling
  else if c = '~' then some .Sym_Tilde
  else if c = '<' then some .Sym_Lt
  else if c = '>' then some .Sym_Gt
  else if c = '{' then some .Sym_LBrace
  else if c = '}' then some .Sym_RBrace
  else if c = '[' then some .Sym_LBracket
  else if c = ']' then some .Sym_RBracket
  else if c = '(' then some .Sym_LParen
  else if c = ')' then some .Sym_RParen
  else none

/-- The symbol_from_chars function of crates/helios-syntax/src/lib.rs. -/
def symbol_from_chars (cs : List Char) : Option SyntaxKind :=
  if cs = ['!', '='] then some .Sym_BangEq
  else if cs = ['<', '='] then some .Sym_LtEq
  else if cs = ['>', '='] then some .Sym_GtEq
  else if cs = ['<', '-'] then some .Sym_LThinArrow
  else if cs = ['-', '>'] then some .Sym_RThinArrow
  else if cs = ['=', '>'] then some .Sym_ThickArrow
  else none

/-- The single-character arms of the Sym token-constructor found in
crates/helios-syntax/src/lib.rs (lines 20-59), read off arm by arm: each arm
maps a one-character spelling to a SyntaxKind. Spellings with no arm (the
colon and the backslash have none) give none, as such an invocation does not
compile in the source. -/
def SymMacro1 (c : Char) : Option SyntaxKind :=
  if c = '&' then some .Sym_Ampersand
  else if c = '*' then some .Sym_Asterisk
  else if c = '@' then some .Sym_At
  else if c = '!' then some .Sym_Bang
  else if c = '^' then some .Sym_Caret
  else if c = ',' then some .Sym_Comma
  else if c = '$' then some .Sym_Dollar
  else if c = '.' then some .Sym_Dot
  else if c = '—' then some .Sym_EmDash
  else if c = '–' then some .Sym_EnDash
  else if c = '=' then some .Sym_Eq
  else if c = '/' then some .Sym_ForwardSlash
  else if c = '-' then some .Sym_Minus
  else if c = '%' then some .Sym_Percent
  else if c = '|' then some .Sym_Pipe
  else if c = '+' then some .Sym_Plus
  else if c = '#' then some .Sym_Pound
  else if c = '?' then some .Sym_Question
  else if c = ';' then some .Sym_Semicolon
  else if c = '£' then some .Sym_Sterling
  else if c = '~' then some .Sym_Tilde
  else if c = '<' then some .Sym_Lt
  else if c = '>' then some .Sym_Gt
  else if c = '{' then some .Sym_LParen
  else if c = '}' then some .Sym_RParen
  else if c = '[' then some .Sym_LBracket
  else if c = ']' then some .Sym_RBracket
  else if c = '(' then some .Sym_LParen
  else if c = ')' then some .Sym_RParen
  else none

/-- The skip-ahead loop inside the inconsistent-dedent recovery of
process_indents (crates/helios-parser/src/lib.rs lines 133-141): starting from
the current end offset, walk tokens until the next Newline token, extending the
end offset past each skipped token; returns the final end offset and the number
of tokens skipped. -/
def skipLine : Nat → List Tok → Nat × Nat
  | e, [] => (e, 0)
  | e, t :: rest =>
    if t.kind = SyntaxKind.Newline then (e, 0)
    else
      let p := skipLine t.stop rest
      (p.1, p.2 + 1)

/-- The emit_dedents loop of process_indents (crates/helios-parser/src/lib.rs
lines 92-155). The indentation stack is a list with the top at the head. Given
the current Newline token, its leading-whitespace width w, the stack and the
tokens following the Newline, it returns the emitted tokens, the new stack, and
how many of the following tokens were consumed (nonzero only for the
inconsistent-dedent recovery). The source's indent_stack.pop().unwrap() on an
empty stack and its source[start..end] slice out of range are panics, modelled
as none. -/
def emitDedents (source : List Char) (curr : Tok) (w : Nat) :
    List Nat → List Tok → Option (List Tok × List Nat × Nat)
  | [], _ => none
  | old :: stk, rest =>
    let newLast := stk.headD 0
    if w < newLast then
      (emitDedents source curr w stk rest).map
        (fun r => ({ curr with kind := SyntaxKind.Dedent } :: r.1, r.2))
    else if w = newLast then
      some ([{ curr with kind := SyntaxKind.Dedent }], stk, 0)
    else
      let p := skipLine curr.stop rest
      if curr.start ≤ p.1 ∧ p.1 ≤ source.length then
        some ([⟨SyntaxKind.Error, slice source curr.start p.1, curr.start, p.1⟩],
          old :: stk, p.2)
      else none

/-- The main loop of process_indents (crates/helios-parser/src/lib.rs lines
64-163), with a fuel argument for structural recursion; one unit of fuel is
spent per loop iteration and each iteration consumes at least one token, so
fuel equal to the token count always suffices. A Newline token with empty text
makes the source panic on text[1..] and is modelled as none. -/
def processLoop (source : List Char) :
    Nat → List Nat → List Tok → Option (List Tok × List Nat)
  | _, st, [] => some ([], st)
  | 0, _, _ :: _ => none
  | fuel + 1, st, curr :: rest =>
    if curr.kind = SyntaxKind.Newline then
      if curr.text = [] then none
      else
        let w := curr.text.length - 1
        let last := st.headD 0
        if w = last then
          (processLoop source fuel st rest).map (fun r => (curr :: r.1, r.2))
        else if w > last then
          (processLoop source fuel (w :: st) rest).map
            (fun r => ({ curr with kind := SyntaxKind.Indent } :: r.1, r.2))
        else
          match emitDedents source curr w st rest with
          | none => none
          | some (em, st', n) =>
            (processLoop source fuel st' (rest.drop n)).map
              (fun r => (em ++ r.1, r.2))
    else
      (processLoop source fuel st rest).map (fun r => (curr :: r.1, r.2))

/-- The end-of-input loop of process_indents (crates/helios-parser/src/lib.rs
lines 166-174): pop the stack, emitting a zero-width Dedent token at offset e
for every level until the first 0 level. -/
def finalDedents (e : Nat) : List Nat → List Tok
  | [] => []
  | n :: st =>
    if n = 0 then [] else ⟨SyntaxKind.Dedent, [], e, e⟩ :: finalDedents e st

/-- The process_indents function of crates/helios-parser/src/lib.rs (lines
55-177): run the main loop from the stack [0], then append the zero-width
balancing Dedent tokens at the end offset of the last processed token. -/
def process_indents (source : List Char) (tokens : List Tok) :
    Option (List Tok) :=
  match processLoop source tokens.length [0] tokens with
  | none => none
  | some (main, st) => some (main ++ finalDedents (lastStop main) st)

/-- Well-formedness of a lexer-produced token vector starting at offset p:
each token starts where the previous one ended, has a nonempty range for
Newline tokens, stays within the source, and carries exactly the source text of
its range. These are the invariants the spec states for the lexer output
(token text equals source[range]; token i's end equals token i+1's start). -/
def wfTokens (source : List Char) : Nat → List Tok → Bool
  | _, [] => true
  | p, t :: rest =>
    decide (t.start = p) && decide (p ≤ t.stop) &&
    decide (t.stop ≤ source.length) &&
    decide (t.text = slice source t.start t.stop) &&
    (decide (t.kind ≠ SyntaxKind.Newline) || decide (p < t.stop)) &&
    wfTokens source t.stop rest

/-- Simulation of the process_indents run that checks that every dedent
resolves in a single iteration of the emit_dedents loop: for each Newline whose
width w drops below the top of the stack, w must be at least the level below
the top (one matching Dedent, or the inconsistent-dedent recovery). Returns
false exactly when some Newline makes the loop pop two or more levels. -/
def singleLevelRun (source : List Char) :
    Nat → List Nat → List Tok → Bool
  | _, _, [] => true
  | 0, _, _ :: _ => true
  | fuel + 1, st, curr :: rest =>
    if curr.kind = SyntaxKind.Newline then
      if curr.text = [] then true
      else
        let w := curr.text.length - 1
        let last := st.headD 0
        if w = last then singleLevelRun source fuel st rest
        else if w > last then singleLevelRun source fuel (w :: st) rest
        else
          if w < st.tail.headD 0 then false
          else if w = st.tail.headD 0 then
            singleLevelRun source fuel st.tail rest
          else
            singleLevelRun source fuel st
              (rest.drop (skipLine curr.stop rest).2)
    else singleLevelRun source fuel st rest

/-- The emit_dedents loop without its recovery branch: returns the popped
stack when the dedent lands on a known level, and none when the dedent is
inconsistent (or the stack runs out). -/
def dedentsNoRec (w : Nat) : List Nat → Option (List Nat)
  | [] => none
  | _old :: stk =>
    let newLast := stk.headD 0
    if w < newLast then dedentsNoRec w stk
    else if w = newLast then some stk
    else none

/-- Simulation of the process_indents run that checks that the
inconsistent-dedent recovery is never taken. -/
def noRecoveryRun : List Nat → List Tok → Bool
  | _, [] => true
  | st, curr :: rest =>
    if curr.kind = SyntaxKind.Newline then
      if curr.text = [] then true
      else
        let w := curr.text.length - 1
        let last := st.headD 0
        if w = last then noRecoveryRun st rest
        else if w > last then noRecoveryRun (w :: st) rest
        else
          match dedentsNoRec w st with
          | some st' => noRecoveryRun st' rest
          | none => false
    else noRecoveryRun st rest

/-- Number of Indent tokens in a token list. -/
def countIndent (ts : List Tok) : Nat :=
  ts.countP (fun t => decide (t.kind = SyntaxKind.Indent))

/-- Number of Dedent tokens in a token list. -/
def countDedent (ts : List Tok) : Nat :=
  ts.countP (fun t => decide (t.kind = SyntaxKind.Dedent))

/-- Modelled from the spec: the text reachable from the tree built by parse.
The parser and event sink (the parser, source and sink modules of
helios-parser, absent from the sources at hand) are modelled by the sink
contract of the spec: the sink replays the event stream against the processed
token vector, appending every token (trivia flushed in order, significant
tokens on AddToken) exactly once and in order, so the concatenation of token
texts in a pre-order traversal of the green tree is the concatenation of the
texts of the processed token vector. -/
def parseText (source : List Char) (tokens : List Tok) : Option (List Char) :=
  (process_indents source tokens).map concatText

end Helios

namespace Koi

/-- The token kinds of the koi-syntax crate referenced by its lexer
(crates/koi-syntax/src/lexer.rs); the syntax module itself is absent from the
sources at hand, so the catalog is reconstructed from the lexer's uses. -/
inductive SyntaxKind where
  | Kwd_Alias | Kwd_And | Kwd_As | Kwd_Const | Kwd_Else | Kwd_Extend
  | Kwd_External | Kwd_For | Kwd_Function | Kwd_If | Kwd_Import | Kwd_In
  | Kwd_Internal | Kwd_Let | Kwd_Match | Kwd_Module | Kwd_Not | Kwd_Of
  | Kwd_Or | Kwd_Public | Kwd_Ref | Kwd_Return | Kwd_Take | Kwd_Type
  | Kwd_Var | Kwd_Where | Kwd_While | Kwd_With | Kwd_Unimplemented
  | Sym_Ampersand | Sym_Asterisk | Sym_At | Sym_BackSlash | Sym_Bang
  | Sym_BangEq | Sym_Caret | Sym_Colon | Sym_Comma | Sym_Dollar | Sym_Dot
  | Sym_EmDash | Sym_EnDash | Sym_Eq | Sym_ForwardSlash | Sym_Minus
  | Sym_Percent | Sym_Pipe | Sym_Plus | Sym_Pound | Sym_Question
  | Sym_Semicolon | Sym_Sterling | Sym_Tilde
  | Sym_Lt | Sym_LtEq | Sym_Gt | Sym_GtEq
  | Sym_LThinArrow | Sym_RThinArrow | Sym_ThickArrow
  | Sym_LBrace | Sym_RBrace | Sym_LBracket | Sym_RBracket
  | Sym_LParen | Sym_RParen
  | Lit_Integer | Lit_Float
  | Whitespace | Identifier
  deriving DecidableEq

/-- The sentinel character the cursor yields when peeking past the end of the
input; modelled from the spec, as the cursor module is absent from the sources
at hand. No valid predicate of the lexer accepts it. -/
def nul : Char := '\x00'

/-- Peek the character n places ahead of the cursor, or the sentinel past the
end (Lexer::peek_at in crates/koi-syntax/src/lexer.rs). -/
def peekAt (s : List Char) (n : Nat) : Char :=
  s.getD n nul

/-- Peek the next character without consuming it (Lexer::peek). -/
def peekc (s : List Char) : Char :=
  peekAt s 0

/-- Modelled from the spec: the Unicode XID_Start property used by the
identifier rules, approximated by the ASCII letters; no claim checked here
depends on non-ASCII identifier characters, and the ASCII digits are not
XID_Start, which is all the dispatch below needs. -/
def xid_start (c : Char) : Bool :=
  c.isAlpha

/-- Modelled from the spec: the Unicode XID_Continue property, approximated by
the ASCII alphanumerics and the underscore. -/
def xid_continue (c : Char) : Bool :=
  c.isAlphanum || c = '_'

/-- The is_identifier_start predicate of crates/koi-syntax/src/lexer.rs. -/
def is_identifier_start (c : Char) : Bool :=
  ('a' ≤ c && c ≤ 'z') || ('A' ≤ c && c ≤ 'Z') || c = '_' || xid_start c

/-- The is_identifier_continue predicate of crates/koi-syntax/src/lexer.rs. -/
def is_identifier_continue (c : Char) : Bool :=
  ('a' ≤ c && c ≤ 'z') || ('A' ≤ c && c ≤ 'Z') || ('0' ≤ c && c ≤ '9')
    || c = '_' || xid_continue c

/-- The is_symbol predicate of crates/koi-syntax/src/lexer.rs. -/
def is_symbol (c : Char) : Bool :=
  c = '&' || c = '*' || c = '@' || c = '!' || c = '^' || c = ':' || c = ',' ||
  c = '$' || c = '.' || c = '–' || c = '—' || c = '=' || c = '-' || c = '%' ||
  c = '+' || c = '#' || c = '?' || c = ';' || c = '£' || c = '~' || c = '|' ||
  c = '/' || c = '\\' || c = '<' || c = '>' || c = '{' || c = '}' ||
  c = '[' || c = ']' || c = '(' || c = ')'

/-- The is_digit predicate of crates/koi-syntax/src/lexer.rs. -/
def is_digit (c : Char) : Bool :=
  '0' ≤ c && c ≤ '9'

/-- The is_whitespace predicate of crates/koi-syntax/src/lexer.rs. -/
def is_whitespace (c : Char) : Bool :=
  c = ' ' || c = '\t' || c = '\r' || c = '\n'

/-- The is_digit_continue predicate inside lex_number of
crates/koi-syntax/src/lexer.rs. -/
def is_digit_continue (c : Char) : Bool :=
  c = '_' || ('0' ≤ c && c ≤ '9') || ('a' ≤ c && c ≤ 'z')
    || ('A' ≤ c && c ≤ 'Z')

/-- The consume_while loop of crates/koi-syntax/src/lexer.rs, returning the
remaining input: consume characters while the predicate holds of the peeked
character and the input is not exhausted. -/
def consume_while (p : Char → Bool) : List Char → List Char
  | [] => []
  | c :: r => if p c then consume_while p r else c :: r

/-- The consume_build loop of crates/koi-syntax/src/lexer.rs, returning the
consumed characters and the remaining input. -/
def consume_build (p : Char → Bool) : List Char → List Char × List Char
  | [] => ([], [])
  | c :: r =>
    if p c then
      let q := consume_build p r
      (c :: q.1, q.2)
    else ([], c :: r)

/-- Modelled from the spec: the koi-syntax symbol_from_char table (the syntax
module is absent from the sources at hand); the spec's single-character symbol
set, mirroring the sibling helios-syntax table. none models the panic on a
character outside the set. -/
def symbol_from_char (c : Char) : Option SyntaxKind :=
  if c = '&' then some .Sym_Ampersand
  else if c = '*' then some .Sym_Asterisk
  else if c = '@' then some .Sym_At
  else if c = '\\' then some .Sym_BackSlash
  else if c = '!' then some .Sym_Bang
  else if c = '^' then some .Sym_Caret
  else if c = ':' then some .Sym_Colon
  else if c = ',' then some .Sym_Comma
  else if c = '$' then some .Sym_Dollar
  else if c = '.' then some .Sym_Dot
  else if c = '—' then some .Sym_EmDash
  else if c = '–' then some .Sym_EnDash
  else if c = '=' then some .Sym_Eq
  else if c = '/' then some .Sym_ForwardSlash
  else if c = '-' then some .Sym_Minus
  else if c = '%' then some .Sym_Percent
  else if c = '|' then some .Sym_Pipe
  else if c = '+' then some .Sym_Plus
  else if c = '#' then some .Sym_Pound
  else if c = '?' then some .Sym_Question
  else if c = ';' then some .Sym_Semicolon
  else if c = '£' then some .Sym_Sterling
  else if c = '~' then some .Sym_Tilde
  else if c = '<' then some .Sym_Lt
  else if c = '>' then some .Sym_Gt
  else if c = '{' then some .Sym_LBrace
  else if c = '}' then some .Sym_RBrace
  else if c = '[' then some .Sym_LBracket
  else if c = ']' then some .Sym_RBracket
  else if c = '(' then some .Sym_LParen
  else if c = ')' then some .Sym_RParen
  else none

/-- Modelled from the spec: the koi-syntax symbol_from_two_chars table; the
spec's two-character symbol set. -/
def symbol_from_two_chars (a b : Char) : Option SyntaxKind :=
  if a = '!' && b = '=' then some .Sym_BangEq
  else if a = '<' && b = '=' then some .Sym_LtEq
  else if a = '>' && b = '=' then some .Sym_GtEq
  else if a = '<' && b = '-' then some .Sym_LThinArrow
  else if a = '-' && b = '>' then some .Sym_RThinArrow
  else if a = '=' && b = '>' then some .Sym_ThickArrow
  else none

/-- The lex_whitespace rule of crates/koi-syntax/src/lexer.rs. -/
def lex_whitespace (s : List Char) : SyntaxKind × List Char :=
  (SyntaxKind.Whitespace, consume_while is_whitespace s)

/-- The lex_symbol rule of crates/koi-syntax/src/lexer.rs (lines 192-215): a
question mark followed by two more question marks makes the Kwd_Unimplemented
keyword, a lone question mark the Sym_Question symbol; other symbols try the
greedy two-character table first. The argument s is the input after the first
character c was consumed. -/
def lex_symbol (c : Char) (s : List Char) : Option (SyntaxKind × List Char) :=
  if c = '?' then
    if peekc s = '?' && peekAt s 1 = '?' then
      some (SyntaxKind.Kwd_Unimplemented, s.drop 2)
    else
      some (SyntaxKind.Sym_Question, s)
  else
    match symbol_from_two_chars c (peekc s) with
    | some k => some (k, s.drop 1)
    | none => (symbol_from_char c).map (fun k => (k, s))

/-- The keyword table of lex_keyword_or_identifier in
crates/koi-syntax/src/lexer.rs. -/
def lex_keyword_or_identifier (cs : List Char) : SyntaxKind :=
  if cs = "alias".toList then .Kwd_Alias
  else if cs = "and".toList then .Kwd_And
  else if cs = "as".toList then .Kwd_As
  else if cs = "const".toList then .Kwd_Const
  else if cs = "else".toList then .Kwd_Else
  else if cs = "extend".toList then .Kwd_Extend
  else if cs = "external".toList then .Kwd_External
  else if cs = "for".toList then .Kwd_For
  else if cs = "function".toList then .Kwd_Function
  else if cs = "if".toList then .Kwd_If
  else if cs = "import".toList then .Kwd_Import
  else if cs = "in".toList then .Kwd_In
  else if cs = "internal".toList then .Kwd_Internal
  else if cs = "let".toList then .Kwd_Let
  else if cs = "match".toList then .Kwd_Match
  else if cs = "module".toList then .Kwd_Module
  else if cs = "not".toList then .Kwd_Not
  else if cs = "of".toList then .Kwd_Of
  else if cs = "or".toList then .Kwd_Or
  else if cs = "public".toList then .Kwd_Public
  else if cs = "ref".toList then .Kwd_Ref
  else if cs = "return".toList then .Kwd_Return
  else if cs = "take".toList then .Kwd_Take
  else if cs = "type".toList then .Kwd_Type
  else if cs = "var".toList then .Kwd_Var
  else if cs = "where".toList then .Kwd_Where
  else if cs = "while".toList then .Kwd_While
  else if cs = "with".toList then .Kwd_With
  else .Identifier

/-- The lex_identifier rule of crates/koi-syntax/src/lexer.rs. -/
def lex_identifier (first : Char) (s : List Char) : SyntaxKind × List Char :=
  let q := consume_build is_identifier_continue s
  (lex_keyword_or_identifier (first :: q.1), q.2)

/-- The lex_number rule of crates/koi-syntax/src/lexer.rs (lines 271-288):
consume the run of digit-continuation characters, then promote to Lit_Float
exactly when the peeked character is a decimal point whose successor is not
another point (consuming the point and a second run); otherwise Lit_Integer,
leaving any .. run unconsumed. -/
def lex_number (s : List Char) : SyntaxKind × List Char :=
  let s1 := consume_while is_digit_continue s
  if peekc s1 = '.' && peekAt s1 1 ≠ '.' then
    (SyntaxKind.Lit_Float, consume_while is_digit_continue (s1.drop 1))
  else
    (SyntaxKind.Lit_Integer, s1)

/-- The tokenize_normal dispatch of crates/koi-syntax/src/lexer.rs (lines
169-180), returning the kind of the next token and the remaining input; none
models both the end of input and the todo panic on an unclassified
character. -/
def tokenize_normal (s : List Char) : Option (SyntaxKind × List Char) :=
  match s with
  | [] => none
  | c :: r =>
    if is_whitespace c then some (lex_whitespace r)
    else if is_symbol c then lex_symbol c r
    else if is_identifier_start c then some (lex_identifier c r)
    else if is_digit c then some (lex_number r)
    else none

end Koi

namespace Koi

/-- Keywords of the older koi-syntax token model referenced by the parser
(crates/koi-syntax/src/parser.rs); the token module is absent from the sources
at hand, so only the variants the parser names are reconstructed. -/
inductive Keyword where
  | Let | If | Then | Else | False | True
  deriving DecidableEq

/-- Operator symbols of the older koi-syntax token model, reconstructed from
the uses in crates/koi-syntax/src/parser.rs. -/
inductive Symbol where
  | Eq | BangEq | Lt | Gt | LtEq | GtEq
  | Plus | Minus | Asterisk | ForwardSlash | Bang | Semicolon
  deriving DecidableEq

/-- Grouping delimiters of the older koi-syntax token model. -/
inductive GroupingDelimiter where
  | Paren | Bracket | Brace
  deriving DecidableEq

/-- Literals of the older koi-syntax token model; the parser only matches the
Integer and Float variants. -/
inductive Literal where
  | Integer (n : Nat) | Float (n : Nat)
  deriving DecidableEq

/-- Token kinds of the older koi-syntax token model referenced by the parser;
Missing boxes the expected kind, as in the source. -/
inductive TokenKind where
  | Identifier
  | Keyword (k : Keyword)
  | Symbol (s : Symbol)
  | Literal (l : Literal)
  | Newline
  | Eof
  | Begin
  | End
  | GroupingStart (d : GroupingDelimiter)
  | GroupingEnd (d : GroupingDelimiter)
  | Missing (k : TokenKind)
  deriving DecidableEq

/-- A byte span, as in the koi-syntax source module. -/
structure Span where
  start : Nat
  stop : Nat
  deriving DecidableEq

/-- A token of the older koi-syntax token model: a kind and a span. -/
structure Token where
  kind : TokenKind
  span : Span
  deriving DecidableEq

/-- Literal nodes of the koi-syntax node model, reconstructed from the uses in
crates/koi-syntax/src/parser.rs. -/
inductive LiteralNode where
  | Boolean (b : Bool)
  | Integer (t : Token)
  | Float (t : Token)
  deriving DecidableEq

/-- Expression nodes of the koi-syntax node model, reconstructed from the
constructions in crates/koi-syntax/src/parser.rs; the builder methods of the
source (operator, lhs, rhs and friends) are modelled as constructor fields. -/
inductive ExpressionNode where
  | Missing (pos : Nat)
  | Unexpected (kind : TokenKind) (pos : Nat)
  | Identifier
  | LiteralNode (l : LiteralNode)
  | LocalBindingNode (identifier equalSymbol : Token) (expr : ExpressionNode)
  | IfExpressionNode (pattern : ExpressionNode) (thenKeyword : Token)
      (expr : ExpressionNode) (elseClause : Option ExpressionNode)
  | BlockExpressionNode (exprs : List ExpressionNode)
  | BinaryExpressionNode (operator : Token) (lhs rhs : ExpressionNode)
  | UnaryExpression (operator : Token) (operand : ExpressionNode)
  | GroupedExpressionNode (startDelim : Token) (expr : ExpressionNode)
      (endDelim : Token)

/-- Parser state: the tokens the lexer has yet to hand out (the peeked-token
buffer of the source collapses into list consumption), plus a consumed-token
count standing in for the lexer's current_pos, whose exact value the absent
lexer module defines. -/
structure PState where
  toks : List Token
  pos : Nat
  deriving DecidableEq

/-- The token an exhausted lexer hands out: the parser's peek never sees None,
so the missing lexer must yield Eof tokens past the end. -/
def eofToken : Token :=
  ⟨TokenKind.Eof, ⟨0, 0⟩⟩

/-- Parser::peek of crates/koi-syntax/src/parser.rs. -/
def peek (st : PState) : Token :=
  st.toks.headD eofToken

/-- Parser::next_token of crates/koi-syntax/src/parser.rs. -/
def next_token (st : PState) : Token × PState :=
  match st.toks with
  | [] => (eofToken, ⟨[], st.pos + 1⟩)
  | t :: r => (t, ⟨r, st.pos + 1⟩)

/-- Parser::check of crates/koi-syntax/src/parser.rs. -/
def check (k : TokenKind) (st : PState) : Bool :=
  (peek st).kind = k

/-- Parser::check_all of crates/koi-syntax/src/parser.rs, for the two-kind set
the block list uses. -/
def check_all (ks : List TokenKind) (st : PState) : Bool :=
  ks.any (fun k => check k st)

/-- Parser::consume of crates/koi-syntax/src/parser.rs: the expected token, or
a zero-width Missing token at the start of the found one. -/
def consume (k : TokenKind) (st : PState) : Token × PState :=
  if (peek st).kind = k then next_token st
  else (⟨TokenKind.Missing k, ⟨(peek st).span.start, (peek st).span.start⟩⟩, st)

/-- Parser::try_consume of crates/koi-syntax/src/parser.rs. -/
def try_consume (k : TokenKind) (st : PState) : Bool × PState :=
  if check k st then (true, (next_token st).2) else (false, st)

/-- The prefix_binding_power table of crates/koi-syntax/src/parser.rs (lines
262-267); none models the panic on a symbol with no prefix power. -/
def unaryBindingPower (s : Symbol) : Option Nat :=
  match s with
  | Symbol.Minus => some 9
  | Symbol.Bang => some 9
  | _ => none

/-- The infix_binding_power table of crates/koi-syntax/src/parser.rs (lines
269-277); none models the panic on a symbol with no infix powers. -/
def binaryBindingPower (s : Symbol) : Option (Nat × Nat) :=
  match s with
  | Symbol.Eq => some (2, 1)
  | Symbol.BangEq => some (2, 1)
  | Symbol.Lt => some (3, 4)
  | Symbol.Gt => some (3, 4)
  | Symbol.LtEq => some (3, 4)
  | Symbol.GtEq => some (3, 4)
  | Symbol.Plus => some (5, 6)
  | Symbol.Minus => some (5, 6)
  | Symbol.Asterisk => some (7, 8)
  | Symbol.ForwardSlash => some (7, 8)
  | _ => none

mutual

/-- Parser::parse_expression of crates/koi-syntax/src/parser.rs, with a fuel
argument for structural recursion; none models fuel exhaustion only. -/
def parse_expression : Nat → PState → Option (ExpressionNode × PState)
  | 0, _ => none
  | fuel + 1, st =>
    if check TokenKind.Eof st then
      let q := next_token st
      some (ExpressionNode.Missing q.2.pos, q.2)
    else if check TokenKind.Newline st then
      let q := next_token st
      some (ExpressionNode.Unexpected TokenKind.Newline q.2.pos, q.2)
    else if check (TokenKind.Keyword Keyword.Let) st then
      parse_let_expression fuel (next_token st).2
    else if check (TokenKind.Keyword Keyword.If) st then
      parse_if_expression fuel (next_token st).2
    else
      parse_binary_expression fuel 0 st

/-- Parser::parse_let_expression of crates/koi-syntax/src/parser.rs. -/
def parse_let_expression : Nat → PState → Option (ExpressionNode × PState)
  | 0, _ => none
  | fuel + 1, st =>
    let i := consume TokenKind.Identifier st
    let e := consume (TokenKind.Symbol Symbol.Eq) i.2
    match parse_expression_block fuel e.2 with
    | none => none
    | some (body, st') =>
      some (ExpressionNode.LocalBindingNode i.1 e.1 body, st')

/-- Parser::parse_if_expression of crates/koi-syntax/src/parser.rs. -/
def parse_if_expression : Nat → PState → Option (ExpressionNode × PState)
  | 0, _ => none
  | fuel + 1, st =>
    match parse_expression fuel st with
    | none => none
    | some (pat, st1) =>
      let t := consume (TokenKind.Keyword Keyword.Then) st1
      match parse_expression_block fuel t.2 with
      | none => none
      | some (body, st2) =>
        let st3 := (try_consume TokenKind.Newline st2).2
        let q := try_consume (TokenKind.Keyword Keyword.Else) st3
        if q.1 then
          match parse_else_clause fuel q.2 with
          | none => none
          | some (els, st4) =>
            some (ExpressionNode.IfExpressionNode pat t.1 body (some els), st4)
        else
          some (ExpressionNode.IfExpressionNode pat t.1 body none, q.2)

/-- Parser::parse_else_clause of crates/koi-syntax/src/parser.rs. -/
def parse_else_clause : Nat → PState → Option (ExpressionNode × PState)
  | 0, _ => none
  | fuel + 1, st =>
    let q := try_consume (TokenKind.Keyword Keyword.If) st
    if q.1 then parse_if_expression fuel q.2
    else parse_expression_block fuel q.2

/-- Parser::parse_expression_block of crates/koi-syntax/src/parser.rs. -/
def parse_expression_block : Nat → PState → Option (ExpressionNode × PState)
  | 0, _ => none
  | fuel + 1, st =>
    let q := try_consume TokenKind.Begin st
    if q.1 then parse_expression_block_list fuel q.2
    else parse_expression fuel q.2

/-- Parser::parse_expression_block_list of crates/koi-syntax/src/parser.rs. -/
def parse_expression_block_list :
    Nat → PState → Option (ExpressionNode × PState)
  | 0, _ => none
  | fuel + 1, st =>
    match parse_expression fuel st with
    | none => none
    | some (e, st1) => blockLoop fuel [e] st1

/-- The while loop of parse_expression_block_list, accumulating the
expressions separated by Newline or Semicolon tokens, then consuming End. -/
def blockLoop : Nat → List ExpressionNode → PState →
    Option (ExpressionNode × PState)
  | 0, _, _ => none
  | fuel + 1, acc, st =>
    if check_all [TokenKind.Newline, TokenKind.Symbol Symbol.Semicolon] st then
      let q := next_token st
      match parse_expression fuel q.2 with
      | none => none
      | some (e, st1) => blockLoop fuel (acc ++ [e]) st1
    else
      let q := consume TokenKind.End st
      some (ExpressionNode.BlockExpressionNode acc, q.2)

/-- Parser::parse_binary_expression of crates/koi-syntax/src/parser.rs (lines
178-207): parse a unary expression, then fold infix operators whose left
binding power is at least the minimum. -/
def parse_binary_expression : Nat → Nat → PState →
    Option (ExpressionNode × PState)
  | 0, _, _ => none
  | fuel + 1, minPrec, st =>
    if check TokenKind.Begin st then parse_expression_block fuel st
    else
      match parse_unary_expression fuel st with
      | none => none
      | some (lhs, st1) => binaryLoop fuel minPrec lhs st1

/-- The operator loop of parse_binary_expression: while the peeked token is a
symbol with binding powers (l, r) and l is at least the minimum, consume it,
parse the right side at r, and fold into a BinaryExpressionNode. -/
def binaryLoop : Nat → Nat → ExpressionNode → PState →
    Option (ExpressionNode × PState)
  | 0, _, _, _ => none
  | fuel + 1, minPrec, lhs, st =>
    match (peek st).kind with
    | TokenKind.Symbol sym =>
      match binaryBindingPower sym with
      | none => none
      | some lr =>
        if lr.1 < minPrec then some (lhs, st)
        else
          let q := next_token st
          match parse_binary_expression fuel lr.2 q.2 with
          | none => none
          | some (rhs, st1) =>
            binaryLoop fuel minPrec
              (ExpressionNode.BinaryExpressionNode q.1 lhs rhs) st1
    | _ => some (lhs, st)

/-- Parser::parse_unary_expression of crates/koi-syntax/src/parser.rs: a
peeked symbol token is consumed as a prefix operator (none models the panic on
a symbol with no prefix power); anything else parses a primary. -/
def parse_unary_expression : Nat → PState → Option (ExpressionNode × PState)
  | 0, _ => none
  | fuel + 1, st =>
    let t := peek st
    match t.kind with
    | TokenKind.Symbol sym =>
      let st1 := (next_token st).2
      match unaryBindingPower sym with
      | none => none
      | some r =>
        match parse_binary_expression fuel r st1 with
        | none => none
        | some (operand, st2) =>
          some (ExpressionNode.UnaryExpression t operand, st2)
    | _ => parse_primary fuel st

/-- Parser::parse_primary of crates/koi-syntax/src/parser.rs: identifiers,
boolean keywords, integer and float literals, and grouped expressions; any
other kind becomes an Unexpected node (the unimplemented literal arms are
modelled as none). The lexer-mode push of the grouping arm has no effect on an
already-fixed token list. -/
def parse_primary : Nat → PState → Option (ExpressionNode × PState)
  | 0, _ => none
  | fuel + 1, st =>
    let q := next_token st
    match q.1.kind with
    | TokenKind.Identifier => some (ExpressionNode.Identifier, q.2)
    | TokenKind.Keyword Keyword.False =>
      some (ExpressionNode.LiteralNode (LiteralNode.Boolean false), q.2)
    | TokenKind.Keyword Keyword.True =>
      some (ExpressionNode.LiteralNode (LiteralNode.Boolean true), q.2)
    | TokenKind.Literal (Literal.Integer _) =>
      some (ExpressionNode.LiteralNode (LiteralNode.Integer q.1), q.2)
    | TokenKind.Literal (Literal.Float _) =>
      some (ExpressionNode.LiteralNode (LiteralNode.Float q.1), q.2)
    | TokenKind.GroupingStart d =>
      match parse_expression fuel q.2 with
      | none => none
      | some (e, st1) =>
        let c := consume (TokenKind.GroupingEnd d) st1
        some (ExpressionNode.GroupedExpressionNode q.1 e c.1, c.2)
    | k => some (ExpressionNode.Unexpected k q.2.pos, q.2)

end

end Koi

namespace Helios

/-- Indentation-stack shape maintained by process_indents: strictly decreasing
from the top (head) and ending in the base level 0. -/
def stackOkB : List Nat → Bool
  | [] => false
  | [n] => decide (n = 0)
  | a :: b :: r => decide (b < a) && stackOkB (b :: r)

end Helios

namespace Koi

/-- The float-promotion condition in the words of the claim under check: the
integer run is followed by a decimal point whose following character is a
digit-continuation character and is not another point. Stated for comparison
with the lex_number embedding above, which it does not match. -/
def floatCondClaim (s : List Char) : Bool :=
  let s1 := s.dropWhile is_digit_continue
  peekc s1 = '.' && is_digit_continue (peekAt s1 1) && peekAt s1 1 ≠ '.'

end Koi

/-- C6: the expression parser's binding powers give multiplication precedence
over addition and make equality right-associative: the token stream of
1 + 2 * 3 parses to a binary addition whose right operand is the binary
multiplication of 2 and 3, and the token stream of a = b = c parses to a
binary equality whose right operand is the binary equality of b and c. -/
theorem C6_binding_powers :
    Koi.parse_binary_expression 20 0
      ⟨[⟨Koi.TokenKind.Literal (Koi.Literal.Integer 1), ⟨0, 1⟩⟩,
        ⟨Koi.TokenKind.Symbol Koi.Symbol.Plus, ⟨2, 3⟩⟩,
        ⟨Koi.TokenKind.Literal (Koi.Literal.Integer 2), ⟨4, 5⟩⟩,
        ⟨Koi.TokenKind.Symbol Koi.Symbol.Asterisk, ⟨6, 7⟩⟩,
        ⟨Koi.TokenKind.Literal (Koi.Literal.Integer 3), ⟨8, 9⟩⟩], 0⟩ =
      some (Koi.ExpressionNode.BinaryExpressionNode
        ⟨Koi.TokenKind.Symbol Koi.Symbol.Plus, ⟨2, 3⟩⟩
        (Koi.ExpressionNode.LiteralNode (Koi.LiteralNode.Integer
          ⟨Koi.TokenKind.Literal (Koi.Literal.Integer 1), ⟨0, 1⟩⟩))
        (Koi.ExpressionNode.BinaryExpressionNode
          ⟨Koi.TokenKind.Symbol Koi.Symbol.Asterisk, ⟨6, 7⟩⟩
          (Koi.ExpressionNode.LiteralNode (Koi.LiteralNode.Integer
            ⟨Koi.TokenKind.Literal (Koi.Literal.Integer 2), ⟨4, 5⟩⟩))
          (Koi.ExpressionNode.LiteralNode (Koi.LiteralNode.Integer
            ⟨Koi.TokenKind.Literal (Koi.Literal.Integer 3), ⟨8, 9⟩⟩))),
        ⟨[], 5⟩) ∧
    Koi.parse_binary_expression 20 0
      ⟨[⟨Koi.TokenKind.Identifier, ⟨0, 1⟩⟩,
        ⟨Koi.TokenKind.Symbol Koi.Symbol.Eq, ⟨2, 3⟩⟩,
        ⟨Koi.TokenKind.Identifier, ⟨4, 5⟩⟩,
        ⟨Koi.TokenKind.Symbol Koi.Symbol.Eq, ⟨6, 7⟩⟩,
        ⟨Koi.TokenKind.Identifier, ⟨8, 9⟩⟩], 0⟩ =
      some (Koi.ExpressionNode.BinaryExpressionNode
        ⟨Koi.TokenKind.Symbol Koi.Symbol.Eq, ⟨2, 3⟩⟩
        Koi.ExpressionNode.Identifier
        (Koi.ExpressionNode.BinaryExpressionNode
          ⟨Koi.TokenKind.Symbol Koi.Symbol.Eq, ⟨6, 7⟩⟩
          Koi.ExpressionNode.Identifier
          Koi.ExpressionNode.Identifier),
        ⟨[], 5⟩) :=
  ⟨rfl, rfl⟩

/-- C7: the two symbol-kind constructors of the catalog do not agree on the
braces: the Sym constructor maps the opening and closing curly brace to the
parenthesis kinds Sym_LParen and Sym_RParen (so it also collides with the
parentheses), while symbol_from_char maps them to the brace kinds Sym_LBrace
and Sym_RBrace. This theorem evaluates both constructors at the braces and at
the parentheses, exhibiting the disagreement the claim rules out. -/
theorem C7_symbol_constructors_disagree :
    Helios.SymMacro1 '{' = some Helios.SyntaxKind.Sym_LParen ∧
    Helios.SymMacro1 '}' = some Helios.SyntaxKind.Sym_RParen ∧
    Helios.symbol_from_char '{' = some Helios.SyntaxKind.Sym_LBrace ∧
    Helios.symbol_from_char '}' = some Helios.SyntaxKind.Sym_RBrace ∧
    Helios.SymMacro1 '{' ≠ Helios.symbol_from_char '{' ∧
    Helios.SymMacro1 '{' = Helios.SymMacro1 '(' := by
  decide

/-- C8: lexing the three-character sequence of three question marks yields the
single keyword token Kwd_Unimplemented consuming all three characters, while a
question mark not followed by two more question marks lexes to a Sym_Question
token consuming only itself. -/
theorem C8_question_marks :
    Koi.tokenize_normal ['?', '?', '?'] =
      some (Koi.SyntaxKind.Kwd_Unimplemented, []) ∧
    ∀ rest : List Char, rest.take 2 ≠ ['?', '?'] →
      Koi.tokenize_normal ('?' :: rest) =
        some (Koi.SyntaxKind.Sym_Question, rest) := by
  refine ⟨by decide, ?_⟩
  intro rest h
  match rest with
  | [] => decide
  | [x] =>
    simp [Koi.tokenize_normal, Koi.is_whitespace, Koi.is_symbol,
      Koi.lex_symbol, Koi.peekc, Koi.peekAt, Koi.nul, List.getD]
  | x :: y :: r =>
    have hxy : ¬(x = '?' ∧ y = '?') := by
      intro hc
      exact h (by simp [hc.1, hc.2])
    have h1 : Koi.is_whitespace '?' = false := by decide
    have h2 : Koi.is_symbol '?' = true := by decide
    by_cases hx : x = '?'
    · have hy : ¬(y = '?') := fun hy => hxy ⟨hx, hy⟩
      simp [Koi.tokenize_normal, h1, h2, Koi.lex_symbol, Koi.peekc,
        Koi.peekAt, List.getD, hx, hy]
    · simp [Koi.tokenize_normal, h1, h2, Koi.lex_symbol, Koi.peekc,
        Koi.peekAt, List.getD, hx]

/-- Witness for C8: a question mark followed by a single question mark is not
followed by two more, and lexes to Sym_Question consuming one character. -/
theorem C8_question_marks_witness :
    List.take 2 ['?'] ≠ ['?', '?'] ∧
    Koi.tokenize_normal ['?', '?'] = some (Koi.SyntaxKind.Sym_Question, ['?']) :=
  ⟨by decide, C8_question_marks.2 ['?'] (by decide)⟩

/-- The consume_while loop of the koi lexer is List.dropWhile. -/
theorem consume_while_eq_dropWhile (p : Char → Bool) :
    ∀ s : List Char, Koi.consume_while p s = s.dropWhile p := by
  intro s
  induction s with
  | nil => rfl
  | cons c r ih => simp [Koi.consume_while, List.dropWhile_cons, ih]

/-- Counterexample for C9: after the integer run of the input 1.+ the decimal
point is followed by a plus sign, which is not a digit-continuation character,
yet lex_number still promotes the token to Lit_Float (consuming the point); the
claimed promotion condition is false while the code promotes, so the claimed
equivalence fails at this input. -/
theorem C9_float_counterexample :
    ¬ (((Koi.lex_number ['.', '+']).1 = Koi.SyntaxKind.Lit_Float) ↔
      Koi.floatCondClaim ['.', '+'] = true) := by
  decide

/-- C9 as amended: when the lexer scans a numeric literal, the token kind is
Lit_Float exactly when the character after the digit-continuation run is a
decimal point whose following character is not another point, whatever that
following character is; and a double point after the run is left unconsumed
with kind Lit_Integer. The argument s is the input after the leading digit. -/
theorem C9_float_promotion (s : List Char) :
    ((Koi.lex_number s).1 = Koi.SyntaxKind.Lit_Float ↔
      (Koi.peekc (s.dropWhile Koi.is_digit_continue) = '.' ∧
        Koi.peekAt (s.dropWhile Koi.is_digit_continue) 1 ≠ '.')) ∧
    (Koi.peekc (s.dropWhile Koi.is_digit_continue) = '.' ∧
        Koi.peekAt (s.dropWhile Koi.is_digit_continue) 1 = '.' →
      Koi.lex_number s =
        (Koi.SyntaxKind.Lit_Integer, s.dropWhile Koi.is_digit_continue)) := by
  unfold Koi.lex_number
  rw [consume_while_eq_dropWhile]
  constructor
  · constructor
    · intro hf
      by_contra hc
      rw [not_and_or] at hc
      rcases hc with hc | hc
      · simp [hc] at hf
      · rw [not_not] at hc
        simp [hc] at hf
    · intro hc
      simp [hc.1, hc.2]
  · intro hc
    simp [hc.1, hc.2]

/-- Witness for C9: the input 1..5 keeps kind Lit_Integer and leaves the
double point and everything after it unconsumed. -/
theorem C9_float_promotion_witness :
    Koi.lex_number ['.', '.', '5'] =
      (Koi.SyntaxKind.Lit_Integer, ['.', '.', '5']) :=
  (C9_float_promotion ['.', '.', '5']).2 (by decide)

/-- C2: on the input a(newline)(4 spaces)b(newline)(2 spaces)c the third line
dedents to width 2, strictly between the known levels 0 and 4. The indentation
rewriter replaces the line by a single Error token covering it and returns only
tokens: its result type carries no message, and parse assembles its message
list from the lexer and the parser alone, so no InconsistentDedent message can
originate here. This theorem evaluates the rewriter at that input. -/
theorem C2_inconsistent_dedent_error_token_no_message :
    Helios.process_indents ("a\n    b\n  c".toList)
      [⟨Helios.SyntaxKind.Identifier, ['a'], 0, 1⟩,
       ⟨Helios.SyntaxKind.Newline, "\n    ".toList, 1, 6⟩,
       ⟨Helios.SyntaxKind.Identifier, ['b'], 6, 7⟩,
       ⟨Helios.SyntaxKind.Newline, "\n  ".toList, 7, 10⟩,
       ⟨Helios.SyntaxKind.Identifier, ['c'], 10, 11⟩] =
    some [⟨Helios.SyntaxKind.Identifier, ['a'], 0, 1⟩,
       ⟨Helios.SyntaxKind.Indent, "\n    ".toList, 1, 6⟩,
       ⟨Helios.SyntaxKind.Identifier, ['b'], 6, 7⟩,
       ⟨Helios.SyntaxKind.Error, "\n  c".toList, 7, 11⟩,
       ⟨Helios.SyntaxKind.Dedent, [], 11, 11⟩] := by
  decide

/-- Counterexample for C1: the input a(newline)(2 spaces)b(newline)(4
spaces)c(newline)d dedents from level 4 straight to level 0, so the rewriter
emits two Dedent tokens both copying the text of the one originating Newline
token; the concatenated text of the parse tree then contains that newline
twice and differs from the input, although the token vector is a well-formed
lexer output covering the whole source. -/
theorem C1_roundtrip_counterexample :
    Helios.wfTokens ("a\n  b\n    c\nd".toList) 0
      [⟨Helios.SyntaxKind.Identifier, ['a'], 0, 1⟩,
       ⟨Helios.SyntaxKind.Newline, "\n  ".toList, 1, 4⟩,
       ⟨Helios.SyntaxKind.Identifier, ['b'], 4, 5⟩,
       ⟨Helios.SyntaxKind.Newline, "\n    ".toList, 5, 10⟩,
       ⟨Helios.SyntaxKind.Identifier, ['c'], 10, 11⟩,
       ⟨Helios.SyntaxKind.Newline, ['\n'], 11, 12⟩,
       ⟨Helios.SyntaxKind.Identifier, ['d'], 12, 13⟩] = true ∧
    Helios.lastStop
      [⟨Helios.SyntaxKind.Identifier, ['a'], 0, 1⟩,
       ⟨Helios.SyntaxKind.Newline, "\n  ".toList, 1, 4⟩,
       ⟨Helios.SyntaxKind.Identifier, ['b'], 4, 5⟩,
       ⟨Helios.SyntaxKind.Newline, "\n    ".toList, 5, 10⟩,
       ⟨Helios.SyntaxKind.Identifier, ['c'], 10, 11⟩,
       ⟨Helios.SyntaxKind.Newline, ['\n'], 11, 12⟩,
       ⟨Helios.SyntaxKind.Identifier, ['d'], 12, 13⟩] =
      ("a\n  b\n    c\nd".toList).length ∧
    Helios.parseText ("a\n  b\n    c\nd".toList)
      [⟨Helios.SyntaxKind.Identifier, ['a'], 0, 1⟩,
       ⟨Helios.SyntaxKind.Newline, "\n  ".toList, 1, 4⟩,
       ⟨Helios.SyntaxKind.Identifier, ['b'], 4, 5⟩,
       ⟨Helios.SyntaxKind.Newline, "\n    ".toList, 5, 10⟩,
       ⟨Helios.SyntaxKind.Identifier, ['c'], 10, 11⟩,
       ⟨Helios.SyntaxKind.Newline, ['\n'], 11, 12⟩,
       ⟨Helios.SyntaxKind.Identifier, ['d'], 12, 13⟩] =
      some ("a\n  b\n    c\n\nd".toList) ∧
    "a\n  b\n    c\n\nd".toList ≠ "a\n  b\n    c\nd".toList := by
  refine ⟨by decide, by decide, by decide, by decide⟩

/-- Counterexample for C3: with indentation stack 6, 4, 2, 0 (top first) a
Newline of width 3 first pops level 6 with a Dedent (3 is below the new top 4),
and only then detects the inconsistency and runs the recovery, which pushes
level 4 back; the final stack 4, 2, 0 differs from the stack 6, 4, 2, 0 as it
was immediately before the Newline token was processed. -/
theorem C3_stack_counterexample :
    Helios.emitDedents ("a\n  b\n    c\n      d\n   e".toList)
      ⟨Helios.SyntaxKind.Newline, "\n   ".toList, 19, 23⟩ 3 [6, 4, 2, 0]
      [⟨Helios.SyntaxKind.Identifier, ['e'], 23, 24⟩] =
    some ([⟨Helios.SyntaxKind.Dedent, "\n   ".toList, 19, 23⟩,
           ⟨Helios.SyntaxKind.Error, "\n   e".toList, 19, 24⟩],
          [4, 2, 0], 1) ∧
    ([4, 2, 0] : List Nat) ≠ [6, 4, 2, 0] := by
  refine ⟨by decide, by decide⟩

/-- Counterexample for C5: on the input a(newline)(4 spaces)b(newline)(2
spaces)c(space)d the inconsistent-dedent recovery swallows the whole last line
(Newline, c, whitespace, d: four tokens) into one Error token, so the returned
vector has 5 tokens while the input had 7. -/
theorem C5_length_counterexample :
    Helios.process_indents ("a\n    b\n  c d".toList)
      [⟨Helios.SyntaxKind.Identifier, ['a'], 0, 1⟩,
       ⟨Helios.SyntaxKind.Newline, "\n    ".toList, 1, 6⟩,
       ⟨Helios.SyntaxKind.Identifier, ['b'], 6, 7⟩,
       ⟨Helios.SyntaxKind.Newline, "\n  ".toList, 7, 10⟩,
       ⟨Helios.SyntaxKind.Identifier, ['c'], 10, 11⟩,
       ⟨Helios.SyntaxKind.Whitespace, [' '], 11, 12⟩,
       ⟨Helios.SyntaxKind.Identifier, ['d'], 12, 13⟩] =
    some [⟨Helios.SyntaxKind.Identifier, ['a'], 0, 1⟩,
       ⟨Helios.SyntaxKind.Indent, "\n    ".toList, 1, 6⟩,
       ⟨Helios.SyntaxKind.Identifier, ['b'], 6, 7⟩,
       ⟨Helios.SyntaxKind.Error, "\n  c d".toList, 7, 13⟩,
       ⟨Helios.SyntaxKind.Dedent, [], 13, 13⟩] ∧
    ([⟨Helios.SyntaxKind.Identifier, ['a'], 0, 1⟩,
       ⟨Helios.SyntaxKind.Indent, "\n    ".toList, 1, 6⟩,
       ⟨Helios.SyntaxKind.Identifier, ['b'], 6, 7⟩,
       ⟨Helios.SyntaxKind.Error, "\n  c d".toList, 7, 13⟩,
       ⟨Helios.SyntaxKind.Dedent, [], 13, 13⟩] : List Helios.Tok).length <
    ([⟨Helios.SyntaxKind.Identifier, ['a'], 0, 1⟩,
       ⟨Helios.SyntaxKind.Newline, "\n    ".toList, 1, 6⟩,
       ⟨Helios.SyntaxKind.Identifier, ['b'], 6, 7⟩,
       ⟨Helios.SyntaxKind.Newline, "\n  ".toList, 7, 10⟩,
       ⟨Helios.SyntaxKind.Identifier, ['c'], 10, 11⟩,
       ⟨Helios.SyntaxKind.Whitespace, [' '], 11, 12⟩,
       ⟨Helios.SyntaxKind.Identifier, ['d'], 12, 13⟩] : List Helios.Tok).length := by
  refine ⟨by decide, by decide⟩

/-- Unfolding lemma for wfTokens on a cons cell. -/
theorem wfTokens_cons {source : List Char} {p : Nat} {t : Helios.Tok}
    {rest : List Helios.Tok} :
    Helios.wfTokens source p (t :: rest) = true ↔
      t.start = p ∧ p ≤ t.stop ∧ t.stop ≤ source.length ∧
      t.text = Helios.slice source t.start t.stop ∧
      (t.kind = Helios.SyntaxKind.Newline → p < t.stop) ∧
      Helios.wfTokens source t.stop rest = true := by
  simp only [Helios.wfTokens, Bool.and_eq_true, Bool.or_eq_true,
    decide_eq_true_eq]
  tauto

/-- Adjacent slices concatenate. -/
theorem slice_append {s : List Char} {a b c : Nat} (hab : a ≤ b)
    (hbc : b ≤ c) :
    Helios.slice s a b ++ Helios.slice s b c = Helios.slice s a c := by
  unfold Helios.slice
  have hd : s.drop b = (s.drop a).drop (b - a) := by
    rw [List.drop_drop]
    congr 1
    omega
  have hc : c - a = (b - a) + (c - b) := by omega
  rw [hd, hc, List.take_add]

/-- A slice with a nonempty range inside the source is nonempty. -/
theorem slice_ne_nil {s : List Char} {a b : Nat} (hab : a < b)
    (hb : b ≤ s.length) : Helios.slice s a b ≠ [] := by
  have : (Helios.slice s a b).length = min (b - a) (s.length - a) := by
    simp [Helios.slice]
  intro hnil
  rw [hnil] at this
  simp at this
  omega

/-- The skip-ahead loop of the recovery: the end offset only grows and stays
inside the source, the tokens after the skipped ones are well formed at the
final offset, and the skipped tokens' texts concatenate to the source slice
between the two offsets. -/
theorem skipLine_spec {source : List Char} :
    ∀ (rest : List Helios.Tok) (e : Nat),
      Helios.wfTokens source e rest = true → e ≤ source.length →
      e ≤ (Helios.skipLine e rest).1 ∧
      (Helios.skipLine e rest).1 ≤ source.length ∧
      Helios.wfTokens source (Helios.skipLine e rest).1
        (rest.drop (Helios.skipLine e rest).2) = true ∧
      Helios.concatText (rest.take (Helios.skipLine e rest).2) =
        Helios.slice source e (Helios.skipLine e rest).1 := by
  intro rest
  induction rest with
  | nil =>
    intro e hwf he
    refine ⟨le_rfl, he, by simp [Helios.skipLine, Helios.wfTokens], ?_⟩
    simp [Helios.skipLine, Helios.concatText, Helios.slice]
  | cons t r ih =>
    intro e hwf he
    have hw := wfTokens_cons.mp hwf
    obtain ⟨hstart, hle, hstop, htext, _, hwfr⟩ := hw
    by_cases hk : t.kind = Helios.SyntaxKind.Newline
    · have hsk : Helios.skipLine e (t :: r) = (e, 0) := by
        simp [Helios.skipLine, hk]
      rw [hsk]
      exact ⟨le_rfl, he, hwf, by simp [Helios.concatText, Helios.slice]⟩
    · have hrec := ih t.stop hwfr hstop
      obtain ⟨h1, h2, h3, h4⟩ := hrec
      have hsk : Helios.skipLine e (t :: r) =
          ((Helios.skipLine t.stop r).1, (Helios.skipLine t.stop r).2 + 1) := by
        simp [Helios.skipLine, hk]
      refine ⟨?_, ?_, ?_, ?_⟩
      · rw [hsk]
        exact le_trans hle h1
      · rw [hsk]
        exact h2
      · rw [hsk]
        simpa using h3
      · rw [hsk]
        simp only [List.take_succ_cons]
        have : Helios.concatText (t :: List.take (Helios.skipLine t.stop r).2 r)
            = t.text ++ Helios.concatText (List.take (Helios.skipLine t.stop r).2 r) := by
          simp [Helios.concatText]
        rw [this, h4, htext, hstart]
        exact slice_append hle h1

/-- The emit_dedents loop returns normally when entered the way the main loop
enters it (the width below the top of the stack) on a well-formed remainder:
the pop never acts on an empty stack and the error slice stays in bounds. -/
theorem emitDedents_isSome {source : List Char} {curr : Helios.Tok} {w : Nat}
    {rest : List Helios.Tok}
    (hwfr : Helios.wfTokens source curr.stop rest = true)
    (hcs : curr.start ≤ curr.stop) (hsl : curr.stop ≤ source.length) :
    ∀ st : List Nat, w < st.headD 0 →
      (Helios.emitDedents source curr w st rest).isSome := by
  intro st
  induction st with
  | nil => intro h; simp at h
  | cons old stk ih =>
    intro _
    simp only [Helios.emitDedents]
    by_cases h1 : w < stk.headD 0
    · rw [if_pos h1]
      rcases Option.isSome_iff_exists.mp (ih h1) with ⟨r, hr⟩
      rw [hr]
      rfl
    · rw [if_neg h1]
      by_cases h2 : w = stk.headD 0
      · rw [if_pos h2]
        rfl
      · rw [if_neg h2]
        have hsk := skipLine_spec rest curr.stop hwfr hsl
        rw [if_pos ⟨le_trans hcs hsk.1, hsk.2.1⟩]
        rfl

/-- What the emit_dedents loop consumes: nothing beyond the Newline, except in
the recovery case, where it consumes the skip-ahead count; and what it emits is
never empty. -/
theorem emitDedents_consumed {source : List Char} {curr : Helios.Tok} {w : Nat}
    {rest : List Helios.Tok} :
    ∀ (st : List Nat) (em : List Helios.Tok) (st' : List Nat) (n : Nat),
      Helios.emitDedents source curr w st rest = some (em, st', n) →
      (n = 0 ∨ n = (Helios.skipLine curr.stop rest).2) ∧ em ≠ [] := by
  intro st
  induction st with
  | nil => intro em st' n h; simp [Helios.emitDedents] at h
  | cons old stk ih =>
    intro em st' n h
    simp only [Helios.emitDedents] at h
    by_cases h1 : w < stk.headD 0
    · rw [if_pos h1] at h
      rcases Option.map_eq_some'.mp h with ⟨⟨em', st'', n'⟩, hrec, heq⟩
      simp only [Prod.mk.injEq] at heq
      obtain ⟨rfl, rfl, rfl⟩ := heq
      exact ⟨(ih _ _ _ hrec).1, by simp⟩
    · rw [if_neg h1] at h
      by_cases h2 : w = stk.headD 0
      · rw [if_pos h2] at h
        simp only [Option.some.injEq, Prod.mk.injEq] at h
        obtain ⟨rfl, rfl, rfl⟩ := h
        exact ⟨Or.inl rfl, by simp⟩
      · rw [if_neg h2] at h
        split at h
        · simp only [Option.some.injEq, Prod.mk.injEq] at h
          obtain ⟨rfl, rfl, rfl⟩ := h
          exact ⟨Or.inr rfl, by simp⟩
        · simp at h

/-- The main loop of the indentation rewriter returns normally on a
well-formed token vector, given enough fuel. -/
theorem processLoop_isSome {source : List Char} :
    ∀ (fuel : Nat) (ts : List Helios.Tok) (p : Nat) (st : List Nat),
      ts.length ≤ fuel → Helios.wfTokens source p ts = true →
      (Helios.processLoop source fuel st ts).isSome := by
  intro fuel
  induction fuel with
  | zero =>
    intro ts p st hlen _
    match ts with
    | [] => simp [Helios.processLoop]
    | t :: r => simp at hlen
  | succ f ih =>
    intro ts p st hlen hwf
    match ts with
    | [] => simp [Helios.processLoop]
    | curr :: rest =>
      obtain ⟨hstart, hle, hstop, htext, hnl, hwfr⟩ := wfTokens_cons.mp hwf
      have hrlen : rest.length ≤ f := by
        simpa using Nat.le_of_succ_le_succ (by simpa using hlen)
      simp only [Helios.processLoop]
      by_cases hk : curr.kind = Helios.SyntaxKind.Newline
      · rw [if_pos hk]
        have htne : curr.text ≠ [] := by
          rw [htext, hstart]
          exact slice_ne_nil (hnl hk) hstop
        rw [if_neg htne]
        by_cases he : curr.text.length - 1 = st.headD 0
        · rw [if_pos he]
          rcases Option.isSome_iff_exists.mp
            (ih rest curr.stop st hrlen hwfr) with ⟨r, hr⟩
          rw [hr]
          rfl
        · rw [if_neg he]
          by_cases hg : curr.text.length - 1 > st.headD 0
          · rw [if_pos hg]
            rcases Option.isSome_iff_exists.mp
              (ih rest curr.stop ((curr.text.length - 1) :: st) hrlen hwfr)
              with ⟨r, hr⟩
            rw [hr]
            rfl
          · rw [if_neg hg]
            have hcs : curr.start ≤ curr.stop := hstart ▸ hle
            have hlt : curr.text.length - 1 < st.headD 0 := by omega
            rcases Option.isSome_iff_exists.mp
              (emitDedents_isSome hwfr hcs hstop st hlt)
              with ⟨⟨em, st', n⟩, hr⟩
            rw [hr]
            have hcons := emitDedents_consumed st em st' n hr
            have hwfd : ∃ q, Helios.wfTokens source q (rest.drop n) = true := by
              rcases hcons.1 with h0 | hskip
              · refine ⟨curr.stop, ?_⟩
                subst h0
                simpa using hwfr
              · refine ⟨(Helios.skipLine curr.stop rest).1, ?_⟩
                subst hskip
                exact (skipLine_spec rest curr.stop hwfr hstop).2.2.1
            rcases hwfd with ⟨q, hwfd⟩
            have hdlen : (rest.drop n).length ≤ f := by
              rw [List.length_drop]
              omega
            rcases Option.isSome_iff_exists.mp
              (ih (rest.drop n) q st' hdlen hwfd) with ⟨r, hr2⟩
            have hred : (match some (em, st', n) with
                | none => (none : Option (List Helios.Tok × List Nat))
                | some (em, st', n) =>
                  Option.map (fun r => (em ++ r.1, r.2))
                    (Helios.processLoop source f st' (List.drop n rest))) =
                Option.map (fun r => (em ++ r.1, r.2))
                  (Helios.processLoop source f st' (List.drop n rest)) := rfl
            rw [hred, hr2]
            rfl
      · rw [if_neg hk]
        rcases Option.isSome_iff_exists.mp
          (ih rest curr.stop st hrlen hwfr) with ⟨r, hr⟩
        rw [hr]
        rfl

/-- C10: on a lexer-produced token vector (contiguous in-bounds ranges whose
texts are the source slices, Newline tokens nonempty), process_indents returns
normally: the internal stack pops never act on an empty stack and the error
slice is always in bounds. -/
theorem C10_process_indents_total (source : List Char)
    (ts : List Helios.Tok) (hwf : Helios.wfTokens source 0 ts = true) :
    (Helios.process_indents source ts).isSome := by
  unfold Helios.process_indents
  rcases Option.isSome_iff_exists.mp
    (processLoop_isSome ts.length ts 0 [0] le_rfl hwf) with ⟨⟨main, st⟩, hr⟩
  rw [hr]
  rfl

/-- Witness for C10: a concrete well-formed vector on which process_indents
returns normally. -/
theorem C10_process_indents_total_witness :
    Helios.wfTokens ("x\n  y".toList) 0
      [⟨Helios.SyntaxKind.Identifier, ['x'], 0, 1⟩,
       ⟨Helios.SyntaxKind.Newline, "\n  ".toList, 1, 4⟩,
       ⟨Helios.SyntaxKind.Identifier, ['y'], 4, 5⟩] = true ∧
    (Helios.process_indents ("x\n  y".toList)
      [⟨Helios.SyntaxKind.Identifier, ['x'], 0, 1⟩,
       ⟨Helios.SyntaxKind.Newline, "\n  ".toList, 1, 4⟩,
       ⟨Helios.SyntaxKind.Identifier, ['y'], 4, 5⟩]).isSome :=
  ⟨by decide, C10_process_indents_total _ _ (by decide)⟩

/-- C3 as amended: the inconsistent-dedent recovery itself leaves the
indentation stack unchanged (the popped level is pushed back), so whenever the
inconsistency is detected on the first pop, that is when the width is already
above the level under the top of the stack, the stack after the recovery
equals the stack as it was immediately before the Newline token; Dedent tokens
emitted by earlier iterations of the loop, however, have already removed
levels (see the counterexample). -/
theorem C3_recovery_stack_restored (source : List Char) (curr : Helios.Tok)
    (w old : Nat) (stk : List Nat) (rest : List Helios.Tok)
    (out : List Helios.Tok × List Nat × Nat)
    (hfirst : stk.headD 0 < w)
    (h : Helios.emitDedents source curr w (old :: stk) rest = some out) :
    out.2.1 = old :: stk := by
  simp only [Helios.emitDedents] at h
  rw [if_neg (by omega), if_neg (by omega)] at h
  split at h
  · simp only [Option.some.injEq] at h
    subst h
    rfl
  · simp at h

/-- Witness for C3: a width-1 dedent onto the stack 2, 0 is detected as
inconsistent on the first pop and the recovery returns the stack 2, 0. -/
theorem C3_recovery_stack_witness :
    (([⟨Helios.SyntaxKind.Error, ['\n'], 0, 1⟩], ([2, 0] : List Nat), 0) :
      List Helios.Tok × List Nat × Nat).2.1 = [2, 0] :=
  C3_recovery_stack_restored ("\nx".toList)
    ⟨Helios.SyntaxKind.Newline, ['\n'], 0, 1⟩ 1 2 [0] []
    ([⟨Helios.SyntaxKind.Error, ['\n'], 0, 1⟩], [2, 0], 0)
    (by decide) (by decide)

/-- When the recovery-free simulation accepts a dedent, the emit_dedents loop
consumes nothing beyond the Newline, reaches the same stack, and emits at
least one token. -/
theorem dedentsNoRec_sync {source : List Char} {curr : Helios.Tok} {w : Nat}
    {rest : List Helios.Tok} :
    ∀ (st st2 : List Nat), Helios.dedentsNoRec w st = some st2 →
      ∀ (em : List Helios.Tok) (st1 : List Nat) (n : Nat),
        Helios.emitDedents source curr w st rest = some (em, st1, n) →
        n = 0 ∧ st1 = st2 ∧ 1 ≤ em.length := by
  intro st
  induction st with
  | nil => intro st2 hd; simp [Helios.dedentsNoRec] at hd
  | cons old stk ih =>
    intro st2 hd em st1 n h
    simp only [Helios.dedentsNoRec] at hd
    simp only [Helios.emitDedents] at h
    by_cases h1 : w < stk.headD 0
    · rw [if_pos h1] at hd h
      rcases Option.map_eq_some'.mp h with ⟨⟨em', sa, na⟩, hrec, heq⟩
      simp only [Prod.mk.injEq] at heq
      have := ih st2 hd em' sa na hrec
      refine ⟨?_, ?_, ?_⟩
      · rw [← heq.2.2]
        exact this.1
      · rw [← heq.2.1]
        exact this.2.1
      · rw [← heq.1]
        simp
    · rw [if_neg h1] at hd h
      by_cases h2 : w = stk.headD 0
      · rw [if_pos h2] at hd h
        simp only [Option.some.injEq] at hd
        simp only [Option.some.injEq, Prod.mk.injEq] at h
        refine ⟨h.2.2.symm, ?_, ?_⟩
        · rw [← h.2.1, ← hd]
        · rw [← h.1]
          simp
      · rw [if_neg h2] at hd
        simp at hd

/-- The main loop of the rewriter emits at least one token for every token it
consumes, so long as no inconsistent-dedent recovery occurs. -/
theorem processLoop_len {source : List Char} :
    ∀ (fuel : Nat) (ts : List Helios.Tok) (st : List Nat)
      (main : List Helios.Tok) (st1 : List Nat),
      Helios.processLoop source fuel st ts = some (main, st1) →
      Helios.noRecoveryRun st ts = true →
      ts.length ≤ main.length := by
  intro fuel
  induction fuel with
  | zero =>
    intro ts st main st1 h _
    match ts with
    | [] => simp
    | t :: r => simp [Helios.processLoop] at h
  | succ f ih =>
    intro ts st main st1 h hnr
    match ts with
    | [] => simp
    | curr :: rest =>
      simp only [Helios.processLoop] at h
      simp only [Helios.noRecoveryRun] at hnr
      by_cases hk : curr.kind = Helios.SyntaxKind.Newline
      · rw [if_pos hk] at h hnr
        rcases htx : curr.text with _ | ⟨c0, ctl⟩
        · rw [htx] at h
          simp at h
        · rw [htx] at h hnr
          rw [if_neg (by simp)] at h
          rw [if_neg (by simp)] at hnr
          rw [← htx] at h hnr
          by_cases he : curr.text.length - 1 = st.headD 0
          · rw [if_pos he] at h hnr
            rcases Option.map_eq_some'.mp h with ⟨⟨l, sa⟩, hrec, heq⟩
            simp only [Prod.mk.injEq] at heq
            have := ih rest st l sa hrec hnr
            rw [← heq.1]
            simp only [List.length_cons]
            omega
          · rw [if_neg he] at h hnr
            by_cases hg : curr.text.length - 1 > st.headD 0
            · rw [if_pos hg] at h hnr
              rcases Option.map_eq_some'.mp h with ⟨⟨l, sa⟩, hrec, heq⟩
              simp only [Prod.mk.injEq] at heq
              have := ih rest _ l sa hrec hnr
              rw [← heq.1]
              simp only [List.length_cons]
              omega
            · rw [if_neg hg] at h hnr
              rcases hdd : Helios.dedentsNoRec (curr.text.length - 1) st
                with _ | st2
              · rw [hdd] at hnr
                simp at hnr
              · rw [hdd] at hnr
                rcases hed : Helios.emitDedents source curr
                    (curr.text.length - 1) st rest with _ | ⟨⟨em, sb, n⟩⟩
                · rw [hed] at h
                  simp at h
                · rw [hed] at h
                  obtain ⟨hn0, hsame, hlen1⟩ :=
                    dedentsNoRec_sync st st2 hdd em sb n hed
                  subst hn0
                  rw [hsame] at h
                  simp only [List.drop_zero] at h
                  rcases Option.map_eq_some'.mp h with ⟨⟨l, sa⟩, hrec, heq⟩
                  simp only [Prod.mk.injEq] at heq
                  have := ih rest st2 l sa hrec hnr
                  rw [← heq.1]
                  simp only [List.length_cons, List.length_append]
                  omega
      · rw [if_neg hk] at h hnr
        rcases Option.map_eq_some'.mp h with ⟨⟨l, sa⟩, hrec, heq⟩
        simp only [Prod.mk.injEq] at heq
        have := ih rest st l sa hrec hnr
        rw [← heq.1]
        simp only [List.length_cons]
        omega

/-- C5 as amended: the vector returned by process_indents is at least as long
as the input vector whenever no inconsistent-dedent recovery occurs (the
recovery replaces a whole line of tokens by one Error token and can shrink the
vector, as the counterexample shows). -/
theorem C5_length_no_recovery (source : List Char) (ts out : List Helios.Tok)
    (h : Helios.process_indents source ts = some out)
    (hnr : Helios.noRecoveryRun [0] ts = true) :
    ts.length ≤ out.length := by
  unfold Helios.process_indents at h
  rcases hpl : Helios.processLoop source ts.length [0] ts with _ | ⟨⟨main, st⟩⟩
  · rw [hpl] at h
    simp at h
  · rw [hpl] at h
    simp only [Option.some.injEq] at h
    have hlen := processLoop_len ts.length ts [0] main st hpl hnr
    rw [← h]
    simp only [List.length_append]
    omega

/-- Witness for C5: a recovery-free indented input keeps its token count (5 in,
5 out). -/
theorem C5_length_witness :
    ([⟨Helios.SyntaxKind.Identifier, ['a'], 0, 1⟩,
      ⟨Helios.SyntaxKind.Newline, "\n  ".toList, 1, 4⟩,
      ⟨Helios.SyntaxKind.Identifier, ['b'], 4, 5⟩,
      ⟨Helios.SyntaxKind.Newline, ['\n'], 5, 6⟩,
      ⟨Helios.SyntaxKind.Identifier, ['c'], 6, 7⟩] : List Helios.Tok).length ≤
    ([⟨Helios.SyntaxKind.Identifier, ['a'], 0, 1⟩,
      ⟨Helios.SyntaxKind.Indent, "\n  ".toList, 1, 4⟩,
      ⟨Helios.SyntaxKind.Identifier, ['b'], 4, 5⟩,
      ⟨Helios.SyntaxKind.Dedent, ['\n'], 5, 6⟩,
      ⟨Helios.SyntaxKind.Identifier, ['c'], 6, 7⟩] : List Helios.Tok).length :=
  C5_length_no_recovery ("a\n  b\nc".toList)
    [⟨Helios.SyntaxKind.Identifier, ['a'], 0, 1⟩,
     ⟨Helios.SyntaxKind.Newline, "\n  ".toList, 1, 4⟩,
     ⟨Helios.SyntaxKind.Identifier, ['b'], 4, 5⟩,
     ⟨Helios.SyntaxKind.Newline, ['\n'], 5, 6⟩,
     ⟨Helios.SyntaxKind.Identifier, ['c'], 6, 7⟩]
    [⟨Helios.SyntaxKind.Identifier, ['a'], 0, 1⟩,
     ⟨Helios.SyntaxKind.Indent, "\n  ".toList, 1, 4⟩,
     ⟨Helios.SyntaxKind.Identifier, ['b'], 4, 5⟩,
     ⟨Helios.SyntaxKind.Dedent, ['\n'], 5, 6⟩,
     ⟨Helios.SyntaxKind.Identifier, ['c'], 6, 7⟩]
    (by decide) (by decide)

/-- Token text concatenation distributes over append. -/
theorem concatText_append (a b : List Helios.Tok) :
    Helios.concatText (a ++ b) = Helios.concatText a ++ Helios.concatText b := by
  simp [Helios.concatText]

/-- Token text concatenation on a cons cell. -/
theorem concatText_cons (t : Helios.Tok) (l : List Helios.Tok) :
    Helios.concatText (t :: l) = t.text ++ Helios.concatText l := by
  simp [Helios.concatText]

/-- The zero-width balancing Dedent tokens carry no text. -/
theorem concatText_finalDedents (e : Nat) :
    ∀ st : List Nat, Helios.concatText (Helios.finalDedents e st) = [] := by
  intro st
  induction st with
  | nil => rfl
  | cons n r ih =>
    by_cases hn : n = 0
    · simp [Helios.finalDedents, hn, Helios.concatText]
    · simp only [Helios.finalDedents, if_neg hn]
      rw [concatText_cons, ih]
      rfl

/-- A well-formed token vector only moves forward: its last end offset is at
least the start offset and stays inside the source. -/
theorem wf_le_lastStop {source : List Char} :
    ∀ (ts : List Helios.Tok) (p : Nat),
      Helios.wfTokens source p ts = true →
      p ≤ ((ts.getLast?.map Helios.Tok.stop).getD p) ∧
      (p ≤ source.length → ((ts.getLast?.map Helios.Tok.stop).getD p) ≤ source.length) := by
  intro ts
  induction ts with
  | nil =>
    intro p _
    simp
  | cons t r ih =>
    intro p hwf
    obtain ⟨hstart, hle, hstop, _, _, hwfr⟩ := wfTokens_cons.mp hwf
    have hrec := ih t.stop hwfr
    rcases hr : r with _ | ⟨r0, rtl⟩
    · simp
      omega
    · rw [← hr]
      have hne : r ≠ [] := by rw [hr]; simp
      have hlast : (t :: r).getLast? = r.getLast? := by
        rw [hr]
        simp [List.getLast?_cons_cons]
      rcases hx : r.getLast? with _ | x
      · rw [hx] at hlast
        exact absurd (List.getLast?_eq_none_iff.mp hx) hne
      · rw [hlast, hx]
        rw [hx] at hrec
        simp only [Option.map_some', Option.getD_some] at hrec ⊢
        exact ⟨le_trans hle hrec.1, fun _ => hrec.2 hstop⟩

/-- A well-formed token vector's texts concatenate to the source slice from
its start offset to its last end offset. -/
theorem wf_covers_concat {source : List Char} :
    ∀ (ts : List Helios.Tok) (p : Nat),
      Helios.wfTokens source p ts = true → p ≤ source.length →
      Helios.concatText ts =
        Helios.slice source p ((ts.getLast?.map Helios.Tok.stop).getD p) := by
  intro ts
  induction ts with
  | nil =>
    intro p _ _
    simp [Helios.concatText, Helios.slice]
  | cons t r ih =>
    intro p hwf hp
    obtain ⟨hstart, hle, hstop, htext, _, hwfr⟩ := wfTokens_cons.mp hwf
    have hrec := ih t.stop hwfr hstop
    rw [concatText_cons, hrec, htext, hstart]
    rcases hr : r with _ | ⟨r0, rtl⟩
    · simp [Helios.slice]
    · rw [← hr]
      have hne : r ≠ [] := by rw [hr]; simp
      have hlast : (t :: r).getLast? = r.getLast? := by
        rw [hr]
        simp [List.getLast?_cons_cons]
      rcases hx : r.getLast? with _ | x
      · exact absurd (List.getLast?_eq_none_iff.mp hx) hne
      · rw [hlast, hx]
        have hstep := (wf_le_lastStop r t.stop hwfr).1
        rw [hx] at hstep
        simp only [Option.map_some', Option.getD_some] at hstep ⊢
        exact slice_append hle hstep

/-- On a well-formed token vector, the main loop of the rewriter preserves the
concatenated text as long as every dedent resolves in a single iteration of
the emit_dedents loop: the Indent, Newline and single Dedent rewrites copy the
Newline text, and the recovery's Error token text is exactly the text of the
tokens it replaces. -/
theorem processLoop_text {source : List Char} :
    ∀ (fuel : Nat) (ts : List Helios.Tok) (p : Nat) (st : List Nat)
      (main : List Helios.Tok) (st1 : List Nat),
      Helios.processLoop source fuel st ts = some (main, st1) →
      Helios.wfTokens source p ts = true →
      Helios.singleLevelRun source fuel st ts = true →
      Helios.concatText main = Helios.concatText ts := by
  intro fuel
  induction fuel with
  | zero =>
    intro ts p st main st1 h _ _
    match ts with
    | [] =>
      simp only [Helios.processLoop, Option.some.injEq, Prod.mk.injEq] at h
      rw [← h.1]
    | t :: r => simp [Helios.processLoop] at h
  | succ f ih =>
    intro ts p st main st1 h hwf hsl
    match ts with
    | [] =>
      simp only [Helios.processLoop, Option.some.injEq, Prod.mk.injEq] at h
      rw [← h.1]
    | curr :: rest =>
      obtain ⟨hstart, hle, hstop, htext, hnl, hwfr⟩ := wfTokens_cons.mp hwf
      simp only [Helios.processLoop] at h
      simp only [Helios.singleLevelRun] at hsl
      by_cases hk : curr.kind = Helios.SyntaxKind.Newline
      · rw [if_pos hk] at h hsl
        by_cases htx : curr.text = []
        · rw [if_pos htx] at h
          simp at h
        · rw [if_neg htx] at h hsl
          by_cases he : curr.text.length - 1 = st.headD 0
          · rw [if_pos he] at h hsl
            rcases Option.map_eq_some'.mp h with ⟨⟨l, sa⟩, hrec, heq⟩
            simp only [Prod.mk.injEq] at heq
            rw [← heq.1, concatText_cons, concatText_cons,
              ih rest curr.stop st l sa hrec hwfr hsl]
          · rw [if_neg he] at h hsl
            by_cases hg : curr.text.length - 1 > st.headD 0
            · rw [if_pos hg] at h hsl
              rcases Option.map_eq_some'.mp h with ⟨⟨l, sa⟩, hrec, heq⟩
              simp only [Prod.mk.injEq] at heq
              rw [← heq.1, concatText_cons, concatText_cons,
                ih rest curr.stop _ l sa hrec hwfr hsl]
            · rw [if_neg hg] at h hsl
              rcases st with _ | ⟨old, stk⟩
              · simp [Helios.emitDedents] at h
              · simp only [List.tail_cons] at hsl
                by_cases hlt : curr.text.length - 1 < stk.headD 0
                · rw [if_pos hlt] at hsl
                  simp at hsl
                · rw [if_neg hlt] at hsl
                  by_cases he2 : curr.text.length - 1 = stk.headD 0
                  · rw [if_pos he2] at hsl
                    have hed : Helios.emitDedents source curr
                        (curr.text.length - 1) (old :: stk) rest =
                        some ([{ curr with kind := Helios.SyntaxKind.Dedent }],
                          stk, 0) := by
                      simp only [Helios.emitDedents]
                      rw [if_neg hlt, if_pos he2]
                    rw [hed] at h
                    rcases Option.map_eq_some'.mp h with ⟨⟨l, sa⟩, hrec, heq⟩
                    simp only [Prod.mk.injEq] at heq
                    simp only [List.drop_zero] at hrec
                    rw [← heq.1, concatText_cons, concatText_append,
                      ih rest curr.stop stk l sa hrec hwfr hsl]
                    simp [Helios.concatText]
                  · rw [if_neg he2] at hsl
                    have hsk := skipLine_spec rest curr.stop hwfr hstop
                    have hed : Helios.emitDedents source curr
                        (curr.text.length - 1) (old :: stk) rest =
                        some ([⟨Helios.SyntaxKind.Error,
                          Helios.slice source curr.start
                            (Helios.skipLine curr.stop rest).1,
                          curr.start, (Helios.skipLine curr.stop rest).1⟩],
                          old :: stk, (Helios.skipLine curr.stop rest).2) := by
                      simp only [Helios.emitDedents]
                      rw [if_neg hlt, if_neg he2,
                        if_pos ⟨le_trans (hstart ▸ hle) hsk.1, hsk.2.1⟩]
                    rw [hed] at h
                    rcases Option.map_eq_some'.mp h with ⟨⟨l, sa⟩, hrec, heq⟩
                    simp only [Prod.mk.injEq] at heq
                    have hihl := ih (rest.drop (Helios.skipLine curr.stop rest).2)
                      (Helios.skipLine curr.stop rest).1 (old :: stk) l sa hrec
                      hsk.2.2.1 hsl
                    have hsplit : Helios.concatText rest =
                        Helios.concatText
                          (rest.take (Helios.skipLine curr.stop rest).2) ++
                        Helios.concatText
                          (rest.drop (Helios.skipLine curr.stop rest).2) := by
                      rw [← concatText_append, List.take_append_drop]
                    rw [← heq.1, concatText_append, hihl,
                      concatText_cons curr rest, hsplit,
                      hsk.2.2.2, htext, hstart, ← List.append_assoc,
                      slice_append hle hsk.1]
                    simp [Helios.concatText]
      · rw [if_neg hk] at h hsl
        rcases Option.map_eq_some'.mp h with ⟨⟨l, sa⟩, hrec, heq⟩
        simp only [Prod.mk.injEq] at heq
        rw [← heq.1, concatText_cons, concatText_cons,
          ih rest curr.stop st l sa hrec hwfr hsl]

/-- C1 as amended: for a lexer-produced token vector covering the source, the
concatenation of token texts in pre-order traversal of the parse tree (the
sink appends the processed tokens' texts in order) yields exactly the source
provided every dedent resolves in a single iteration of the emit-dedents loop;
when the indentation drops by more than one level at once, each emitted Dedent
token copies the text of the single originating Newline token, and the
round trip fails (see the counterexample). -/
theorem C1_lossless_roundtrip_single_level (source : List Char)
    (ts : List Helios.Tok)
    (hwf : Helios.wfTokens source 0 ts = true)
    (hcov : Helios.lastStop ts = source.length)
    (hsl : Helios.singleLevelRun source ts.length [0] ts = true) :
    Helios.parseText source ts = some source := by
  rcases Option.isSome_iff_exists.mp
    (processLoop_isSome ts.length ts 0 [0] le_rfl hwf) with ⟨⟨main, st⟩, hr⟩
  unfold Helios.parseText Helios.process_indents
  rw [hr]
  simp only [Option.map_some', Option.some.injEq]
  rw [concatText_append, concatText_finalDedents,
    processLoop_text ts.length ts 0 [0] main st hr hwf hsl,
    wf_covers_concat ts 0 hwf (by omega)]
  unfold Helios.lastStop at hcov
  rw [hcov]
  simp [Helios.slice]

/-- Witness for C1: the indented input a(newline)(2 spaces)b(newline)c, whose
single dedent lands back on level 0, round-trips exactly. -/
theorem C1_lossless_roundtrip_witness :
    Helios.parseText ("a\n  b\nc".toList)
      [⟨Helios.SyntaxKind.Identifier, ['a'], 0, 1⟩,
       ⟨Helios.SyntaxKind.Newline, "\n  ".toList, 1, 4⟩,
       ⟨Helios.SyntaxKind.Identifier, ['b'], 4, 5⟩,
       ⟨Helios.SyntaxKind.Newline, ['\n'], 5, 6⟩,
       ⟨Helios.SyntaxKind.Identifier, ['c'], 6, 7⟩] =
      some ("a\n  b\nc".toList) :=
  C1_lossless_roundtrip_single_level ("a\n  b\nc".toList)
    [⟨Helios.SyntaxKind.Identifier, ['a'], 0, 1⟩,
     ⟨Helios.SyntaxKind.Newline, "\n  ".toList, 1, 4⟩,
     ⟨Helios.SyntaxKind.Identifier, ['b'], 4, 5⟩,
     ⟨Helios.SyntaxKind.Newline, ['\n'], 5, 6⟩,
     ⟨Helios.SyntaxKind.Identifier, ['c'], 6, 7⟩]
    (by decide) (by decide) (by decide)

/-- Indent count on a cons cell. -/
theorem countIndent_cons (t : Helios.Tok) (l : List Helios.Tok) :
    Helios.countIndent (t :: l) = Helios.countIndent l +
      (if t.kind = Helios.SyntaxKind.Indent then 1 else 0) := by
  simp [Helios.countIndent, List.countP_cons]

/-- Dedent count on a cons cell. -/
theorem countDedent_cons (t : Helios.Tok) (l : List Helios.Tok) :
    Helios.countDedent (t :: l) = Helios.countDedent l +
      (if t.kind = Helios.SyntaxKind.Dedent then 1 else 0) := by
  simp [Helios.countDedent, List.countP_cons]

/-- Indent count distributes over append. -/
theorem countIndent_append (a b : List Helios.Tok) :
    Helios.countIndent (a ++ b) =
      Helios.countIndent a + Helios.countIndent b := by
  simp [Helios.countIndent, List.countP_append]

/-- Dedent count distributes over append. -/
theorem countDedent_append (a b : List Helios.Tok) :
    Helios.countDedent (a ++ b) =
      Helios.countDedent a + Helios.countDedent b := by
  simp [Helios.countDedent, List.countP_append]

/-- A well-shaped indentation stack is nonempty. -/
theorem stackOkB_ne_nil {st : List Nat} (h : Helios.stackOkB st = true) :
    st ≠ [] := by
  intro he
  rw [he] at h
  simp [Helios.stackOkB] at h

/-- A well-shaped stack whose second level is below the top stays well shaped
after a pop, and pushing a level above the top keeps it well shaped. -/
theorem stackOkB_tail {a : Nat} {st : List Nat}
    (h : Helios.stackOkB (a :: st) = true) (hne : st ≠ []) :
    Helios.stackOkB st = true := by
  rcases st with _ | ⟨b, r⟩
  · exact absurd rfl hne
  · simp only [Helios.stackOkB, Bool.and_eq_true] at h
    exact h.2

/-- Pushing a level strictly above the top keeps the stack well shaped. -/
theorem stackOkB_push {w : Nat} {st : List Nat}
    (h : Helios.stackOkB st = true) (hw : st.headD 0 < w) :
    Helios.stackOkB (w :: st) = true := by
  rcases st with _ | ⟨b, r⟩
  · simp [Helios.stackOkB] at h
  · simp only [List.headD_cons] at hw
    simp only [Helios.stackOkB, Bool.and_eq_true, decide_eq_true_eq]
    exact ⟨hw, h⟩

/-- The second level of a well-shaped stack is strictly below the top. -/
theorem stackOkB_head {a : Nat} {st : List Nat}
    (h : Helios.stackOkB (a :: st) = true) (hne : st ≠ []) :
    st.headD 0 < a := by
  rcases st with _ | ⟨b, r⟩
  · exact absurd rfl hne
  · simp only [Helios.stackOkB, Bool.and_eq_true, decide_eq_true_eq] at h
    simpa using h.1

/-- On a one-element well-shaped stack the level is 0. -/
theorem stackOkB_single {a : Nat} (h : Helios.stackOkB [a] = true) : a = 0 := by
  simpa [Helios.stackOkB] using h

/-- Balance bookkeeping of the emit_dedents loop: it emits no Indent token,
one Dedent token per popped level, and leaves a well-shaped stack. -/
theorem emitDedents_balance {source : List Char} {curr : Helios.Tok} {w : Nat}
    {rest : List Helios.Tok} :
    ∀ (st : List Nat) (em : List Helios.Tok) (st1 : List Nat) (n : Nat),
      Helios.stackOkB st = true → w < st.headD 0 →
      Helios.emitDedents source curr w st rest = some (em, st1, n) →
      Helios.countIndent em = 0 ∧
      Helios.countDedent em + st1.length = st.length ∧
      Helios.stackOkB st1 = true := by
  intro st
  induction st with
  | nil => intro em st1 n _ hw; simp at hw
  | cons old stk ih =>
    intro em st1 n hok hw h
    simp only [Helios.emitDedents] at h
    have hkd : ({ curr with kind := Helios.SyntaxKind.Dedent } :
        Helios.Tok).kind = Helios.SyntaxKind.Dedent := rfl
    by_cases h1 : w < stk.headD 0
    · have hne : stk ≠ [] := by
        intro he
        rw [he] at h1
        simp at h1
      rw [if_pos h1] at h
      rcases Option.map_eq_some'.mp h with ⟨⟨em', sa, na⟩, hrec, heq⟩
      simp only [Prod.mk.injEq] at heq
      obtain ⟨he1, he2, _⟩ := heq
      have hrc := ih em' sa na (stackOkB_tail hok hne) h1 hrec
      refine ⟨?_, ?_, ?_⟩
      · rw [← he1, countIndent_cons, hrc.1, if_neg (by rw [hkd]; decide)]
      · rw [← he1, ← he2, countDedent_cons, if_pos hkd]
        simp only [List.length_cons]
        omega
      · rw [← he2]
        exact hrc.2.2
    · rw [if_neg h1] at h
      by_cases h2 : w = stk.headD 0
      · have hne : stk ≠ [] := by
          intro he
          subst he
          have h0 := stackOkB_single hok
          simp only [List.headD_cons] at hw
          omega
        rw [if_pos h2] at h
        simp only [Option.some.injEq, Prod.mk.injEq] at h
        obtain ⟨he1, he2, _⟩ := h
        refine ⟨?_, ?_, ?_⟩
        · rw [← he1, countIndent_cons, if_neg (by rw [hkd]; decide)]
          simp [Helios.countIndent]
        · rw [← he1, ← he2, countDedent_cons, if_pos hkd]
          simp only [List.length_cons]
          have : Helios.countDedent [] = 0 := rfl
          simp [Helios.countDedent]
          omega
        · rw [← he2]
          exact stackOkB_tail hok hne
      · rw [if_neg h2] at h
        split at h
        · simp only [Option.some.injEq, Prod.mk.injEq] at h
          obtain ⟨he1, he2, _⟩ := h
          refine ⟨?_, ?_, ?_⟩
          · rw [← he1]
            simp [Helios.countIndent, List.countP_cons]
          · rw [← he1, ← he2]
            simp [Helios.countDedent, List.countP_cons]
          · rw [← he2]
            exact hok
        · simp at h

/-- Balance invariant of the rewriter's main loop: starting from a well-shaped
stack, it keeps the stack well shaped, the Indent/Dedent surplus equals the
stack growth, and every prefix of the emitted tokens has strictly fewer
Dedent tokens than Indent tokens plus the entry stack depth. -/
theorem processLoop_balance {source : List Char} :
    ∀ (fuel : Nat) (ts : List Helios.Tok) (st : List Nat)
      (main : List Helios.Tok) (st1 : List Nat),
      Helios.processLoop source fuel st ts = some (main, st1) →
      Helios.stackOkB st = true →
      (∀ t ∈ ts, t.kind ≠ Helios.SyntaxKind.Indent ∧
        t.kind ≠ Helios.SyntaxKind.Dedent) →
      Helios.stackOkB st1 = true ∧
      Helios.countIndent main + st.length =
        Helios.countDedent main + st1.length ∧
      ∀ p q, main = p ++ q →
        Helios.countDedent p + 1 ≤ Helios.countIndent p + st.length := by
  intro fuel
  induction fuel with
  | zero =>
    intro ts st main st1 h hok _
    match ts with
    | [] =>
      simp only [Helios.processLoop, Option.some.injEq, Prod.mk.injEq] at h
      obtain ⟨h1, h2⟩ := h
      subst h1
      refine ⟨h2 ▸ hok, h2 ▸ rfl, ?_⟩
      intro p q hpq
      have hp : p = [] := (List.append_eq_nil.mp hpq.symm).1
      subst hp
      have : 0 < st.length := List.length_pos.mpr (stackOkB_ne_nil hok)
      simp [Helios.countDedent, Helios.countIndent]
      omega
    | t :: r => simp [Helios.processLoop] at h
  | succ f ih =>
    intro ts st main st1 h hok hin
    match ts with
    | [] =>
      simp only [Helios.processLoop, Option.some.injEq, Prod.mk.injEq] at h
      obtain ⟨h1, h2⟩ := h
      subst h1
      refine ⟨h2 ▸ hok, h2 ▸ rfl, ?_⟩
      intro p q hpq
      have hp : p = [] := (List.append_eq_nil.mp hpq.symm).1
      subst hp
      have : 0 < st.length := List.length_pos.mpr (stackOkB_ne_nil hok)
      simp [Helios.countDedent, Helios.countIndent]
      omega
    | curr :: rest =>
      have hin0 := hin curr (by simp)
      have hinr : ∀ t ∈ rest, t.kind ≠ Helios.SyntaxKind.Indent ∧
          t.kind ≠ Helios.SyntaxKind.Dedent :=
        fun t ht => hin t (by simp [ht])
      have hstlen : 0 < st.length := List.length_pos.mpr (stackOkB_ne_nil hok)
      have hkD : ¬ curr.kind = Helios.SyntaxKind.Dedent := hin0.2
      have hkI : ¬ curr.kind = Helios.SyntaxKind.Indent := hin0.1
      simp only [Helios.processLoop] at h
      by_cases hk : curr.kind = Helios.SyntaxKind.Newline
      · rw [if_pos hk] at h
        by_cases htx : curr.text = []
        · rw [if_pos htx] at h
          simp at h
        · rw [if_neg htx] at h
          by_cases he : curr.text.length - 1 = st.headD 0
          · rw [if_pos he] at h
            rcases Option.map_eq_some'.mp h with ⟨⟨l, sa⟩, hrec, heq⟩
            simp only [Prod.mk.injEq] at heq
            obtain ⟨he1, he2⟩ := heq
            have hrc := ih rest st l sa hrec hok hinr
            refine ⟨he2 ▸ hrc.1, ?_, ?_⟩
            · rw [← he1, ← he2, countIndent_cons, countDedent_cons,
                if_neg hkI, if_neg hkD]
              have := hrc.2.1
              omega
            · intro p q hpq
              rw [← he1] at hpq
              rcases p with _ | ⟨x, p'⟩
              · simp [Helios.countDedent, Helios.countIndent]
                omega
              · rw [List.cons_append] at hpq
                injection hpq with hx hl
                subst hx
                have := hrc.2.2 p' q hl
                rw [countIndent_cons, countDedent_cons,
                  if_neg hkI, if_neg hkD]
                omega
          · rw [if_neg he] at h
            by_cases hg : curr.text.length - 1 > st.headD 0
            · rw [if_pos hg] at h
              rcases Option.map_eq_some'.mp h with ⟨⟨l, sa⟩, hrec, heq⟩
              simp only [Prod.mk.injEq] at heq
              obtain ⟨he1, he2⟩ := heq
              have hrc := ih rest ((curr.text.length - 1) :: st) l sa hrec
                (stackOkB_push hok hg) hinr
              have hiI : ({ curr with kind := Helios.SyntaxKind.Indent } :
                  Helios.Tok).kind = Helios.SyntaxKind.Indent := rfl
              refine ⟨he2 ▸ hrc.1, ?_, ?_⟩
              · rw [← he1, ← he2, countIndent_cons, countDedent_cons,
                  if_pos hiI, if_neg (by rw [hiI]; intro hc; cases hc)]
                have := hrc.2.1
                simp only [List.length_cons] at this
                omega
              · intro p q hpq
                rw [← he1] at hpq
                rcases p with _ | ⟨x, p'⟩
                · simp [Helios.countDedent, Helios.countIndent]
                  omega
                · rw [List.cons_append] at hpq
                  injection hpq with hx hl
                  subst hx
                  have := hrc.2.2 p' q hl
                  rw [countIndent_cons, countDedent_cons, if_pos hiI,
                    if_neg (by rw [hiI]; intro hc; cases hc)]
                  simp only [List.length_cons] at this
                  omega
            · rw [if_neg hg] at h
              have hlt : curr.text.length - 1 < st.headD 0 := by omega
              rcases hed : Helios.emitDedents source curr
                  (curr.text.length - 1) st rest with _ | ⟨⟨em, sb, n⟩⟩
              · rw [hed] at h
                simp at h
              · rw [hed] at h
                have hbal := emitDedents_balance st em sb n hok hlt hed
                rcases Option.map_eq_some'.mp h with ⟨⟨l, sa⟩, hrec, heq⟩
                simp only [Prod.mk.injEq] at heq
                obtain ⟨he1, he2⟩ := heq
                have hrc := ih (rest.drop n) sb l sa hrec hbal.2.2
                  (fun t ht => hinr t (List.mem_of_mem_drop ht))
                have hsb : 0 < sb.length :=
                  List.length_pos.mpr (stackOkB_ne_nil hbal.2.2)
                refine ⟨he2 ▸ hrc.1, ?_, ?_⟩
                · rw [← he1, ← he2, countIndent_append, countDedent_append]
                  have h1 := hbal.1
                  have h2 := hbal.2.1
                  have h3 := hrc.2.1
                  omega
                · intro p q hpq
                  rw [← he1] at hpq
                  rcases List.append_eq_append_iff.mp hpq.symm with
                    ⟨x, hx1, hx2⟩ | ⟨y, hy1, hy2⟩
                  · -- em = p ++ x: the prefix stops inside the dedent run
                    have hmono : Helios.countDedent p ≤
                        Helios.countDedent em := by
                      rw [hx1, countDedent_append]
                      omega
                    have h2 := hbal.2.1
                    omega
                  · -- p = em ++ y: the prefix extends into the recursion
                    have := hrc.2.2 y q hy2
                    rw [hy1, countIndent_append, countDedent_append]
                    have h1 := hbal.1
                    have h2 := hbal.2.1
                    omega
      · rw [if_neg hk] at h
        rcases Option.map_eq_some'.mp h with ⟨⟨l, sa⟩, hrec, heq⟩
        simp only [Prod.mk.injEq] at heq
        obtain ⟨he1, he2⟩ := heq
        have hrc := ih rest st l sa hrec hok hinr
        refine ⟨he2 ▸ hrc.1, ?_, ?_⟩
        · rw [← he1, ← he2, countIndent_cons, countDedent_cons,
            if_neg hkI, if_neg hkD]
          have := hrc.2.1
          omega
        · intro p q hpq
          rw [← he1] at hpq
          rcases p with _ | ⟨x, p'⟩
          · simp [Helios.countDedent, Helios.countIndent]
            omega
          · rw [List.cons_append] at hpq
            injection hpq with hx hl
            subst hx
            have := hrc.2.2 p' q hl
            rw [countIndent_cons, countDedent_cons,
              if_neg hkI, if_neg hkD]
            omega

/-- Dropping from a list keeps the last element when anything remains. -/
theorem getLast?_drop_ne_nil {α : Type} :
    ∀ (l : List α) (n : Nat), l.drop n ≠ [] →
      (l.drop n).getLast? = l.getLast? := by
  intro l
  induction l with
  | nil => intro n h; simp at h
  | cons a t ih =>
    intro n h
    rcases n with _ | m
    · rfl
    · rw [List.drop_succ_cons] at h ⊢
      rw [ih m h]
      have ht : t ≠ [] := by
        intro he
        rw [he] at h
        simp at h
      rcases t with _ | ⟨b, r⟩
      · exact absurd rfl ht
      · simp [List.getLast?_cons_cons]

/-- When the skip-ahead loop consumes the whole remainder, its end offset is
the last token's end (or the entry offset when there was nothing). -/
theorem skipLine_last :
    ∀ (rest : List Helios.Tok) (e : Nat),
      rest.drop (Helios.skipLine e rest).2 = [] →
      (Helios.skipLine e rest).1 =
        ((rest.getLast?.map Helios.Tok.stop).getD e) := by
  intro rest
  induction rest with
  | nil => intro e _; rfl
  | cons t r ih =>
    intro e h
    by_cases hk : t.kind = Helios.SyntaxKind.Newline
    · have hsk : Helios.skipLine e (t :: r) = (e, 0) := by
        simp [Helios.skipLine, hk]
      rw [hsk] at h
      simp at h
    · have hsk : Helios.skipLine e (t :: r) =
          ((Helios.skipLine t.stop r).1,
            (Helios.skipLine t.stop r).2 + 1) := by
        simp [Helios.skipLine, hk]
      rw [hsk] at h ⊢
      simp only [List.drop_succ_cons] at h
      rw [ih t.stop h]
      rcases hr : r with _ | ⟨r0, rl⟩
      · simp
      · rw [← hr]
        have hne : r ≠ [] := by rw [hr]; simp
        rcases hx : r.getLast? with _ | x
        · exact absurd (List.getLast?_eq_none_iff.mp hx) hne
        · have hlast : (t :: r).getLast? = r.getLast? := by
            rw [hr]
            simp [List.getLast?_cons_cons]
          rw [hlast, hx]
          simp

/-- The last token the emit_dedents loop emits ends either at the Newline's
end (no recovery) or at the recovery's skip-ahead end offset. -/
theorem emitDedents_getLast {source : List Char} {curr : Helios.Tok} {w : Nat}
    {rest : List Helios.Tok} :
    ∀ (st : List Nat) (em : List Helios.Tok) (st1 : List Nat) (n : Nat),
      Helios.emitDedents source curr w st rest = some (em, st1, n) →
      (em.getLast?.map Helios.Tok.stop = some curr.stop ∧ n = 0) ∨
      (em.getLast?.map Helios.Tok.stop =
          some (Helios.skipLine curr.stop rest).1 ∧
        n = (Helios.skipLine curr.stop rest).2) := by
  intro st
  induction st with
  | nil => intro em st1 n h; simp [Helios.emitDedents] at h
  | cons old stk ih =>
    intro em st1 n h
    simp only [Helios.emitDedents] at h
    by_cases h1 : w < stk.headD 0
    · rw [if_pos h1] at h
      rcases Option.map_eq_some'.mp h with ⟨⟨em', sa, na⟩, hrec, heq⟩
      simp only [Prod.mk.injEq] at heq
      obtain ⟨he1, _, he3⟩ := heq
      have hne : em' ≠ [] := (emitDedents_consumed stk em' sa na hrec).2
      have hlast : em.getLast? = em'.getLast? := by
        rw [← he1, ← List.singleton_append]
        exact List.getLast?_append_of_ne_nil _ hne
      rw [hlast, ← he3]
      exact ih em' sa na hrec
    · rw [if_neg h1] at h
      by_cases h2 : w = stk.headD 0
      · rw [if_pos h2] at h
        simp only [Option.some.injEq, Prod.mk.injEq] at h
        obtain ⟨he1, _, he3⟩ := h
        rw [← he1, ← he3]
        exact Or.inl ⟨rfl, rfl⟩
      · rw [if_neg h2] at h
        split at h
        · simp only [Option.some.injEq, Prod.mk.injEq] at h
          obtain ⟨he1, _, he3⟩ := h
          rw [← he1, ← he3]
          exact Or.inr ⟨rfl, rfl⟩
        · simp at h

/-- The main loop's output ends where the input ends: the last emitted token
has the last input token's end offset, and the output is empty exactly for an
empty input. -/
theorem processLoop_getLast {source : List Char} :
    ∀ (fuel : Nat) (ts : List Helios.Tok) (st : List Nat)
      (main : List Helios.Tok) (st1 : List Nat),
      Helios.processLoop source fuel st ts = some (main, st1) →
      main.getLast?.map Helios.Tok.stop = ts.getLast?.map Helios.Tok.stop ∧
      (main = [] ↔ ts = []) := by
  intro fuel
  induction fuel with
  | zero =>
    intro ts st main st1 h
    match ts with
    | [] =>
      simp only [Helios.processLoop, Option.some.injEq, Prod.mk.injEq] at h
      rw [← h.1]
      simp
    | t :: r => simp [Helios.processLoop] at h
  | succ f ih =>
    intro ts st main st1 h
    match ts with
    | [] =>
      simp only [Helios.processLoop, Option.some.injEq, Prod.mk.injEq] at h
      rw [← h.1]
      simp
    | curr :: rest =>
      simp only [Helios.processLoop] at h
      have hcons : ∀ (c : Helios.Tok) (l : List Helios.Tok),
          c.stop = curr.stop →
          l.getLast?.map Helios.Tok.stop = rest.getLast?.map Helios.Tok.stop →
          (l = [] ↔ rest = []) →
          (c :: l).getLast?.map Helios.Tok.stop =
            (curr :: rest).getLast?.map Helios.Tok.stop ∧
          (c :: l = [] ↔ curr :: rest = []) := by
        intro c l hstop hlst hiff
        constructor
        · rcases hl : l with _ | ⟨l0, ltl⟩
          · have hrnil : rest = [] := hiff.mp hl
            subst hrnil
            simp [hstop]
          · rw [← hl]
            have hlne : l ≠ [] := by rw [hl]; simp
            have hrne : rest ≠ [] := fun hc => hlne (hiff.mpr hc)
            rcases hrr : rest with _ | ⟨r0, rtl⟩
            · exact absurd hrr hrne
            · rw [← hrr]
              have e1 : (c :: l).getLast? = l.getLast? := by
                rw [hl]
                simp [List.getLast?_cons_cons]
              have e2 : (curr :: rest).getLast? = rest.getLast? := by
                rw [hrr]
                simp [List.getLast?_cons_cons]
              rw [e1, e2, hlst]
        · simp
      by_cases hk : curr.kind = Helios.SyntaxKind.Newline
      · rw [if_pos hk] at h
        by_cases htx : curr.text = []
        · rw [if_pos htx] at h
          simp at h
        · rw [if_neg htx] at h
          by_cases he : curr.text.length - 1 = st.headD 0
          · rw [if_pos he] at h
            rcases Option.map_eq_some'.mp h with ⟨⟨l, sa⟩, hrec, heq⟩
            simp only [Prod.mk.injEq] at heq
            have hrc := ih rest st l sa hrec
            rw [← heq.1]
            exact hcons curr l rfl hrc.1 hrc.2
          · rw [if_neg he] at h
            by_cases hg : curr.text.length - 1 > st.headD 0
            · rw [if_pos hg] at h
              rcases Option.map_eq_some'.mp h with ⟨⟨l, sa⟩, hrec, heq⟩
              simp only [Prod.mk.injEq] at heq
              have hrc := ih rest _ l sa hrec
              rw [← heq.1]
              exact hcons _ l rfl hrc.1 hrc.2
            · rw [if_neg hg] at h
              rcases hed : Helios.emitDedents source curr
                  (curr.text.length - 1) st rest with _ | ⟨⟨em, sb, n⟩⟩
              · rw [hed] at h
                simp at h
              · rw [hed] at h
                rcases Option.map_eq_some'.mp h with ⟨⟨l, sa⟩, hrec, heq⟩
                simp only [Prod.mk.injEq] at heq
                have hrc := ih (rest.drop n) sb l sa hrec
                have hemne : em ≠ [] :=
                  (emitDedents_consumed st em sb n hed).2
                have hmne : em ++ l ≠ [] := by
                  intro hc
                  exact hemne (List.append_eq_nil.mp hc).1
                refine ⟨?_, ?_⟩
                · rcases hl : l with _ | ⟨l0, ltl⟩
                  · -- the recursion produced nothing: the input stopped here
                    have hdnil : rest.drop n = [] := hrc.2.mp hl
                    subst hl
                    rw [List.append_nil] at heq
                    rw [← heq.1]
                    rcases emitDedents_getLast st em sb n hed with
                      ⟨hlst, hn0⟩ | ⟨hlst, hnsk⟩
                    · subst hn0
                      simp only [List.drop_zero] at hdnil
                      subst hdnil
                      rw [hlst]
                      simp
                    · subst hnsk
                      have hsl := skipLine_last rest curr.stop hdnil
                      rw [hlst, hsl]
                      rcases hrr : rest with _ | ⟨r0, rtl⟩
                      · simp
                      · rw [← hrr]
                        have hrne : rest ≠ [] := by rw [hrr]; simp
                        rcases hx : rest.getLast? with _ | x
                        · exact absurd (List.getLast?_eq_none_iff.mp hx) hrne
                        · have e2 : (curr :: rest).getLast? = rest.getLast? := by
                            rw [hrr]
                            simp [List.getLast?_cons_cons]
                          rw [e2, hx]
                          simp
                  · have hlne : l ≠ [] := by rw [hl]; simp
                    have hdne : rest.drop n ≠ [] := fun hc => hlne (hrc.2.mpr hc)
                    have hrne : rest ≠ [] := by
                      intro hc
                      rw [hc] at hdne
                      simp at hdne
                    rw [← heq.1, List.getLast?_append_of_ne_nil _ hlne,
                      hrc.1, getLast?_drop_ne_nil rest n hdne]
                    rcases hrr : rest with _ | ⟨r0, rtl⟩
                    · exact absurd hrr hrne
                    · rw [← hrr]
                      have e2 : (curr :: rest).getLast? = rest.getLast? := by
                        rw [hrr]
                        simp [List.getLast?_cons_cons]
                      rw [e2]
                · rw [← heq.1]
                  constructor
                  · intro hc
                    exact absurd hc hmne
                  · intro hc
                    cases hc
      · rw [if_neg hk] at h
        rcases Option.map_eq_some'.mp h with ⟨⟨l, sa⟩, hrec, heq⟩
        simp only [Prod.mk.injEq] at heq
        have hrc := ih rest st l sa hrec
        rw [← heq.1]
        exact hcons curr l rfl hrc.1 hrc.2

/-- Every end-of-input balancing token is the zero-width Dedent at offset e. -/
theorem finalDedents_mem (e : Nat) :
    ∀ (st : List Nat) (t : Helios.Tok), t ∈ Helios.finalDedents e st →
      t = ⟨Helios.SyntaxKind.Dedent, [], e, e⟩ := by
  intro st
  induction st with
  | nil => intro t ht; simp [Helios.finalDedents] at ht
  | cons n r ih =>
    intro t ht
    by_cases hn : n = 0
    · simp [Helios.finalDedents, hn] at ht
    · simp only [Helios.finalDedents, if_neg hn, List.mem_cons] at ht
      rcases ht with ht | ht
      · exact ht
      · exact ih t ht

/-- On a well-shaped stack the end-of-input loop emits one Dedent per level
above the bottom 0. -/
theorem finalDedents_length (e : Nat) :
    ∀ st : List Nat, Helios.stackOkB st = true →
      (Helios.finalDedents e st).length = st.length - 1 := by
  intro st
  induction st with
  | nil => intro h; simp [Helios.stackOkB] at h
  | cons n r ih =>
    intro h
    rcases r with _ | ⟨b, r'⟩
    · have := stackOkB_single h
      simp [Helios.finalDedents, this]
    · have hok : Helios.stackOkB (b :: r') = true := stackOkB_tail h (by simp)
      have hlt : b < n := by
        have := stackOkB_head h (by simp)
        simpa using this
      have hn : n ≠ 0 := by omega
      have hstep : Helios.finalDedents e (n :: b :: r') =
          (⟨Helios.SyntaxKind.Dedent, [], e, e⟩ : Helios.Tok) ::
            Helios.finalDedents e (b :: r') := by
        simp [Helios.finalDedents, hn]
      rw [hstep, List.length_cons, ih hok]
      simp

/-- C4: in the vector returned by process_indents (on a lexer-produced input,
which contains no Indent or Dedent tokens), every prefix has at least as many
Indent tokens as Dedent tokens, the whole vector has exactly as many, and the
final balancing Dedent tokens are zero-width with range end..end at the end
offset of the input's last token. -/
theorem C4_indent_dedent_balance (source : List Char)
    (ts out : List Helios.Tok)
    (hin : ∀ t ∈ ts, t.kind ≠ Helios.SyntaxKind.Indent ∧
      t.kind ≠ Helios.SyntaxKind.Dedent)
    (h : Helios.process_indents source ts = some out) :
    (∀ p q, out = p ++ q → Helios.countDedent p ≤ Helios.countIndent p) ∧
    Helios.countDedent out = Helios.countIndent out ∧
    ∃ main st, Helios.processLoop source ts.length [0] ts = some (main, st) ∧
      out = main ++ Helios.finalDedents (Helios.lastStop main) st ∧
      Helios.lastStop main = Helios.lastStop ts ∧
      ∀ t ∈ Helios.finalDedents (Helios.lastStop main) st,
        t = ⟨Helios.SyntaxKind.Dedent, [], Helios.lastStop ts,
          Helios.lastStop ts⟩ := by
  unfold Helios.process_indents at h
  rcases hpl : Helios.processLoop source ts.length [0] ts with _ | ⟨⟨main, st⟩⟩
  · rw [hpl] at h
    simp at h
  · rw [hpl] at h
    simp only [Option.some.injEq] at h
    have hok0 : Helios.stackOkB [0] = true := by decide
    have hbal := processLoop_balance ts.length ts [0] main st hpl hok0 hin
    have hlst := processLoop_getLast ts.length ts [0] main st hpl
    have hE : Helios.lastStop main = Helios.lastStop ts := by
      unfold Helios.lastStop
      rw [hlst.1]
    have hstpos : 0 < st.length := List.length_pos.mpr (stackOkB_ne_nil hbal.1)
    have hflen := finalDedents_length (Helios.lastStop main) st hbal.1
    have h2 := hbal.2.1
    simp only [List.length_singleton] at h2
    have hfd : Helios.countDedent
        (Helios.finalDedents (Helios.lastStop main) st) =
        (Helios.finalDedents (Helios.lastStop main) st).length := by
      apply List.countP_eq_length.mpr
      intro a ha
      rw [finalDedents_mem (Helios.lastStop main) st a ha]
      rfl
    have hfi : Helios.countIndent
        (Helios.finalDedents (Helios.lastStop main) st) = 0 := by
      apply List.countP_eq_zero.mpr
      intro a ha
      rw [finalDedents_mem (Helios.lastStop main) st a ha]
      simp
    refine ⟨?_, ?_, main, st, rfl, h.symm, hE, ?_⟩
    · intro p q hpq
      rw [← h] at hpq
      rcases List.append_eq_append_iff.mp hpq with
        ⟨x, hx1, hx2⟩ | ⟨y, hy1, hy2⟩
      · -- p = main ++ x, x a prefix of the balancing dedents
        have hxd : Helios.countDedent x = x.length := by
          apply List.countP_eq_length.mpr
          intro a ha
          have hmem : a ∈ Helios.finalDedents (Helios.lastStop main) st := by
            rw [hx2]
            exact List.mem_append.mpr (Or.inl ha)
          rw [finalDedents_mem (Helios.lastStop main) st a hmem]
          rfl
        have hxi : Helios.countIndent x = 0 := by
          apply List.countP_eq_zero.mpr
          intro a ha
          have hmem : a ∈ Helios.finalDedents (Helios.lastStop main) st := by
            rw [hx2]
            exact List.mem_append.mpr (Or.inl ha)
          rw [finalDedents_mem (Helios.lastStop main) st a hmem]
          simp
        have hxlen : x.length ≤
            (Helios.finalDedents (Helios.lastStop main) st).length := by
          rw [hx2]
          simp
        rw [hx1, countIndent_append, countDedent_append, hxd, hxi]
        omega
      · -- main = p ++ y: inside the main loop's output
        have := hbal.2.2 p y hy1
        simp only [List.length_singleton] at this
        omega
    · rw [← h, countIndent_append, countDedent_append, hfd, hfi]
      omega
    · intro t ht
      rw [← hE]
      exact finalDedents_mem (Helios.lastStop main) st t ht

/-- Witness for C4: the two-line input a(newline)(2 spaces)b gets one Indent
and one zero-width Dedent at offset 5, and balances. -/
theorem C4_balance_witness :
    (∀ p q, ([⟨Helios.SyntaxKind.Identifier, ['a'], 0, 1⟩,
        ⟨Helios.SyntaxKind.Indent, "\n  ".toList, 1, 4⟩,
        ⟨Helios.SyntaxKind.Identifier, ['b'], 4, 5⟩,
        ⟨Helios.SyntaxKind.Dedent, [], 5, 5⟩] : List Helios.Tok) = p ++ q →
      Helios.countDedent p ≤ Helios.countIndent p) ∧
    Helios.countDedent
        [⟨Helios.SyntaxKind.Identifier, ['a'], 0, 1⟩,
         ⟨Helios.SyntaxKind.Indent, "\n  ".toList, 1, 4⟩,
         ⟨Helios.SyntaxKind.Identifier, ['b'], 4, 5⟩,
         ⟨Helios.SyntaxKind.Dedent, [], 5, 5⟩] =
      Helios.countIndent
        [⟨Helios.SyntaxKind.Identifier, ['a'], 0, 1⟩,
         ⟨Helios.SyntaxKind.Indent, "\n  ".toList, 1, 4⟩,
         ⟨Helios.SyntaxKind.Identifier, ['b'], 4, 5⟩,
         ⟨Helios.SyntaxKind.Dedent, [], 5, 5⟩] ∧
    ∃ (main : List Helios.Tok) (st : List Nat),
      Helios.processLoop ("a\n  b".toList)
        (List.length ([⟨Helios.SyntaxKind.Identifier, ['a'], 0, 1⟩,
          ⟨Helios.SyntaxKind.Newline, "\n  ".toList, 1, 4⟩,
          ⟨Helios.SyntaxKind.Identifier, ['b'], 4, 5⟩] : List Helios.Tok)) [0]
        [⟨Helios.SyntaxKind.Identifier, ['a'], 0, 1⟩,
         ⟨Helios.SyntaxKind.Newline, "\n  ".toList, 1, 4⟩,
         ⟨Helios.SyntaxKind.Identifier, ['b'], 4, 5⟩] = some (main, st) ∧
      ([⟨Helios.SyntaxKind.Identifier, ['a'], 0, 1⟩,
        ⟨Helios.SyntaxKind.Indent, "\n  ".toList, 1, 4⟩,
        ⟨Helios.SyntaxKind.Identifier, ['b'], 4, 5⟩,
        ⟨Helios.SyntaxKind.Dedent, [], 5, 5⟩] : List Helios.Tok) =
        main ++ Helios.finalDedents (Helios.lastStop main) st ∧
      Helios.lastStop main = Helios.lastStop
        [⟨Helios.SyntaxKind.Identifier, ['a'], 0, 1⟩,
         ⟨Helios.SyntaxKind.Newline, "\n  ".toList, 1, 4⟩,
         ⟨Helios.SyntaxKind.Identifier, ['b'], 4, 5⟩] ∧
      ∀ t ∈ Helios.finalDedents (Helios.lastStop main) st,
        t = ⟨Helios.SyntaxKind.Dedent, [],
          Helios.lastStop
            [⟨Helios.SyntaxKind.Identifier, ['a'], 0, 1⟩,
             ⟨Helios.SyntaxKind.Newline, "\n  ".toList, 1, 4⟩,
             ⟨Helios.SyntaxKind.Identifier, ['b'], 4, 5⟩],
          Helios.lastStop
            [⟨Helios.SyntaxKind.Identifier, ['a'], 0, 1⟩,
             ⟨Helios.SyntaxKind.Newline, "\n  ".toList, 1, 4⟩,
             ⟨Helios.SyntaxKind.Identifier, ['b'], 4, 5⟩]⟩ :=
  C4_indent_dedent_balance ("a\n  b".toList)
    [⟨Helios.SyntaxKind.Identifier, ['a'], 0, 1⟩,
     ⟨Helios.SyntaxKind.Newline, "\n  ".toList, 1, 4⟩,
     ⟨Helios.SyntaxKind.Identifier, ['b'], 4, 5⟩]
    [⟨Helios.SyntaxKind.Identifier, ['a'], 0, 1⟩,
     ⟨Helios.SyntaxKind.Indent, "\n  ".toList, 1, 4⟩,
     ⟨Helios.SyntaxKind.Identifier, ['b'], 4, 5⟩,
     ⟨Helios.SyntaxKind.Dedent, [], 5, 5⟩]
    (by decide) (by decide)
